import Mathlib

/-!
# egoll codec: Buffer, fixed-header codec, uvarint codec

A shallow embedding of `src/codec/buffer.go`, `src/codec/header_len_codec.go`
and `src/codec/uvarint_codec.go`.

Conventions of the embedding.

* A byte is a `Fin 256`.  A Go `[]byte` whose length equals its capacity is a
  `List Byte`.
* Go's `int` is a 64-bit signed integer: it is an `Int`, and the `+` and `-`
  the source performs on `int`s go through `wrapInt` (two's complement wrap);
  only the byte counter of `binary.Uvarint`, which never exceeds 11, is left
  unwrapped.  `uint64` and `uint16` values are `Nat`s reduced modulo `2^64` and
  `2^16`.
* A run-time panic (slice bounds out of range, index out of range) is the
  value `none` of an `Option`.  What a call has stored by the time it panics
  is given by a function of its own where it matters: `Buffer.afterRead` for
  the cursor of a `Buffer`, `headerLenEncoder.pooledAfter` for a pooled slice.
* The `for { ... }` loops of the two `Decode` methods may fail to return, so
  they are run for a number of iterations (`fuel`); the result records whether
  the loop returned, panicked or is still running, and the payloads passed to
  the handler so far, oldest first.  The handler is an observer: it does not
  write to the buffer and does not panic.
-/

namespace Codec

/-! ## Machine integers and slices -/

abbrev Byte := Fin 256

/-- Go conversion `byte(x)` of an unsigned integer: the low eight bits. -/
def byte (x : Nat) : Byte := ⟨x % 256, Nat.mod_lt x (by decide)⟩

/-- Largest value of Go's 64-bit `int`. -/
def maxInt : Int := 9223372036854775807

/-- Two's complement wrap of a mathematical integer into Go's 64-bit `int`. -/
def wrapInt (x : Int) : Int :=
  (x + 9223372036854775808) % 18446744073709551616 - 9223372036854775808

/-- Go conversion `uint16(l)` of an `int`. -/
def uint16 (l : Int) : Nat := (l % 65536).toNat

/-- Go conversion `uint64(l)` of an `int`. -/
def uint64 (l : Int) : Nat := (l % 18446744073709551616).toNat

/-- Go conversion `int(x)` of a `uint64`. -/
def intOfUint64 (x : Nat) : Int := wrapInt (x : Int)

/-- Go slice expression `s[lo:hi]` on a slice whose capacity equals its length:
panics unless `0 ≤ lo ≤ hi ≤ len(s)`. -/
def slice (s : List Byte) (lo hi : Int) : Option (List Byte) :=
  if 0 ≤ lo ∧ lo ≤ hi ∧ hi ≤ (s.length : Int) then
    some ((s.drop lo.toNat).take (hi - lo).toNat)
  else none

/-- Go builtin `copy(dst, src)`, returning the new contents of `dst`: the first
`min(len(dst), len(src))` bytes are overwritten (memmove semantics). -/
def copy (dst src : List Byte) : List Byte :=
  src.take dst.length ++ dst.drop src.length

/-! ## Errors -/

inductive Error where
  | ErrNotEnough
  | illegalHeaderLength (bodyLen : Int)
  | illegalBodyLength (bodyLen : Nat)
  | EAGAIN
  | other (code : Nat)
  deriving DecidableEq, Repr

/-! ## buffer.go -/

structure Buffer where
  buf : List Byte
  start : Int
  end_ : Int
  deriving DecidableEq, Repr

def NewBuffer (bytes : List Byte) : Buffer :=
  { buf := bytes, start := 0, end_ := 0 }

namespace Buffer

def Len (b : Buffer) : Int := wrapInt (b.end_ - b.start)

def Cap (b : Buffer) : Int := (b.buf.length : Int)

def GetBytes (b : Buffer) : Option (List Byte) := slice b.buf b.start b.end_

def GetBuf (b : Buffer) : List Byte := b.buf

def reset (b : Buffer) : Option Buffer :=
  if b.start = 0 then some b
  else
    match slice b.buf b.start b.end_ with
    | none => none
    | some src =>
      some { buf := copy b.buf src, start := 0, end_ := wrapInt (b.end_ - b.start) }

/-- Result of one `reader.Read(p)` call: the bytes the reader stored at the
front of `p`, and the `(n, err)` it returned. -/
structure ReadResult where
  data : List Byte
  n : Int
  err : Option Error
  deriving DecidableEq, Repr

/-- An `io.Reader`: given the slice it is handed, what it stores and returns. -/
abbrev Reader := List Byte → ReadResult

def ReadFromReader (b : Buffer) (reader : Reader) : Option ((Int × Option Error) × Buffer) :=
  match b.reset with
  | none => none
  | some b1 =>
    match slice b1.buf b1.end_ (b1.buf.length : Int) with
    | none => none
    | some tail =>
      let r := reader tail
      let b2 : Buffer := { b1 with buf := b1.buf.take b1.end_.toNat ++ copy tail r.data }
      if r.err ≠ none then some ((r.n, r.err), b2)
      else some ((r.n, none), { b2 with end_ := wrapInt (b2.end_ + r.n) })

def Seek (b : Buffer) (len : Int) : Option (List Byte × Option Error) :=
  if b.Len ≥ len then
    match slice b.buf b.start (wrapInt (b.start + len)) with
    | none => none
    | some buf => some (buf, none)
  else some ([], some Error.ErrNotEnough)

/-- Method `Read`: the `(buf, err)` it returns and the receiver afterwards.  A
panic of the slice expression is `none`; the source has by then run
`b.start += offset`, and `afterRead` below is the receiver as the call leaves
it, panic or not. -/
def Read (b : Buffer) (offset limit : Int) : Option ((List Byte × Option Error) × Buffer) :=
  if b.Len < wrapInt (offset + limit) then some (([], some Error.ErrNotEnough), b)
  else
    let b1 : Buffer := { b with start := wrapInt (b.start + offset) }
    match slice b1.buf b1.start (wrapInt (b1.start + limit)) with
    | none => none
    | some buf => some ((buf, none), { b1 with start := wrapInt (b1.start + limit) })

def ReadAll (b : Buffer) : Option (List Byte × Buffer) :=
  match b.Read b.start b.end_ with
  | none => none
  | some ((buf, _), b1) => some (buf, b1)

end Buffer

/-! ## The decode loops -/

/-- Outcome of one iteration of a `Decode` loop body. -/
inductive Step where
  | next (body : List Byte) (b : Buffer)
  | ret (err : Option Error) (b : Buffer)
  | panic
  deriving DecidableEq, Repr

inductive Status where
  | running
  | returned (err : Option Error)
  | panicked
  deriving DecidableEq, Repr

/-- State of a `Decode` call after some iterations: `calls` are the handler's
arguments so far, in order. -/
structure Exec where
  status : Status
  calls : List (List Byte)
  buffer : Buffer
  deriving DecidableEq, Repr

/-- Run `for { body }` for at most `fuel` iterations.  At a panic, `buffer` is
the buffer as the panicking iteration found it. -/
def runLoop (body : Buffer → Step) : Nat → Buffer → Exec
  | 0, b => { status := Status.running, calls := [], buffer := b }
  | fuel + 1, b =>
    match body b with
    | Step.panic => { status := Status.panicked, calls := [], buffer := b }
    | Step.ret err b1 => { status := Status.returned err, calls := [], buffer := b1 }
    | Step.next p b1 =>
      let r := runLoop body fuel b1
      { r with calls := p :: r.calls }

/-! ## header_len_codec.go -/

/-- Go `binary.BigEndian.Uint16(b)`: `_ = b[1]` then `b[1] | b[0]<<8`. -/
def BigEndianUint16 (b : List Byte) : Option Nat :=
  match b with
  | b0 :: b1 :: _ => some ((b1.val ||| (b0.val <<< 8)) % 65536)
  | _ => none

/-- Go `binary.BigEndian.PutUint16(b, v)`: `_ = b[1]; b[0] = byte(v>>8);
b[1] = byte(v)`, returning the new contents of `b`. -/
def BigEndianPutUint16 (b : List Byte) (v : Nat) : Option (List Byte) :=
  match b with
  | _ :: _ :: rest => some (byte (v >>> 8) :: byte v :: rest)
  | _ => none

structure headerLenDecoder where
  headerLen : Int
  deriving DecidableEq, Repr

def NewHeaderLenDecoder (headerLen : Int) : Option headerLenDecoder :=
  if headerLen ≤ 0 then none else some { headerLen := headerLen }

namespace headerLenDecoder

/-- One iteration of the loop of `headerLenDecoder.Decode`. -/
def iter (d : headerLenDecoder) (buffer : Buffer) : Step :=
  match buffer.Seek d.headerLen with
  | none => Step.panic
  | some (header, err) =>
    if err = some Error.ErrNotEnough then Step.ret none buffer
    else
      match BigEndianUint16 header with
      | none => Step.panic
      | some v =>
        let bodyLen : Int := (v : Int)
        if bodyLen = 0 ∨ bodyLen > wrapInt (buffer.Cap - d.headerLen) then
          Step.ret (some (Error.illegalHeaderLength bodyLen)) buffer
        else
          match buffer.Read d.headerLen bodyLen with
          | none => Step.panic
          | some ((body, err1), b1) =>
            if err1 = some Error.ErrNotEnough then Step.ret none b1
            else Step.next body b1

def Decode (d : headerLenDecoder) (fuel : Nat) (buffer : Buffer) : Exec :=
  runLoop d.iter fuel buffer

end headerLenDecoder

/-- An `io.Writer`, reduced to the `err` its `Write(p)` returns for the bytes
`p`; the count it returns is discarded by both encoders. -/
abbrev Writer := List Byte → Option Error

/-- What an `EncodeToWriter` call did: the byte strings passed to `w.Write`, in
order, and the error value returned to the caller. -/
structure EncodeResult where
  writes : List (List Byte)
  err : Option Error
  deriving DecidableEq, Repr

structure headerLenEncoder where
  headerLen : Int
  writeBufferLen : Int
  deriving DecidableEq, Repr

def NewHeaderLenEncoder (headerLen writeBufferLen : Int) : Option headerLenEncoder :=
  if headerLen ≤ 0 ∨ writeBufferLen ≤ 0 then none
  else some { headerLen := headerLen, writeBufferLen := writeBufferLen }

namespace headerLenEncoder

/-- The scratch slice `buffer` of `EncodeToWriter`, as its backing array up to
its capacity; its length is `l + headerLen`.  `pooled` is the slice handed out
by `writeBufferPool.Get()`: `writeBufferLen` bytes, zero when fresh from `New`
and otherwise holding whatever an earlier call left there. -/
def scratch (e : headerLenEncoder) (pooled : List Byte) (l : Int) : Option (List Byte) :=
  if l ≤ wrapInt (e.writeBufferLen - e.headerLen) then
    -- obj.([]byte)[0 : l+e.headerLen]
    if 0 ≤ wrapInt (l + e.headerLen) ∧ wrapInt (l + e.headerLen) ≤ (pooled.length : Int) then
      some pooled
    else none
  else
    -- make([]byte, l+e.headerLen)
    if 0 ≤ wrapInt (l + e.headerLen) then
      some (List.replicate (wrapInt (l + e.headerLen)).toNat 0)
    else none

/-- The body of `EncodeToWriter` after `buffer` is chosen: `arr` is the backing
array of `buffer` up to its capacity, `n = l + headerLen` its length.  Writes
the header with `PutUint16(buffer[0:2], uint16(l))`, copies the payload to
`buffer[headerLen:]`, and returns the `n` bytes of `buffer`. -/
def fill (e : headerLenEncoder) (arr : List Byte) (n : Int) (bytes : List Byte) :
    Option (List Byte) :=
  -- buffer[0:2] is checked against cap(buffer)
  match slice arr 0 2 with
  | none => none
  | some hdr =>
    match BigEndianPutUint16 hdr (uint16 (bytes.length : Int)) with
    | none => none
    | some hdr1 =>
      -- buffer[e.headerLen:] is checked against len(buffer)
      match slice ((copy arr hdr1).take n.toNat) e.headerLen n with
      | none => none
      | some dst =>
        some (((copy arr hdr1).take e.headerLen.toNat ++ copy dst bytes
          ++ (copy arr hdr1).drop n.toNat).take n.toNat)

def EncodeToWriter (e : headerLenEncoder) (pooled : List Byte) (w : Writer)
    (bytes : List Byte) : Option EncodeResult :=
  match e.scratch pooled (bytes.length : Int) with
  | none => none
  | some arr =>
    match e.fill arr (wrapInt ((bytes.length : Int) + e.headerLen)) bytes with
    | none => none
    | some out => some { writes := [out], err := w out }

end headerLenEncoder

/-! ## uvarint_codec.go -/

/-- Go `byte(x) | 0x80` and the like: bitwise or of two bytes. -/
def orByte (a b : Byte) : Byte := byte (a.val ||| b.val)

/-- Loop of Go `binary.Uvarint(buf)` (`for i, b := range buf`), with
`MaxVarintLen64 = 10`; `x` is a `uint64`, `s` the shift. -/
def UvarintLoop : List Byte → Nat → Nat → Nat → Nat × Int
  | [], _, _, _ => (0, 0)
  | b :: rest, i, x, s =>
    if i = 10 then (0, -((i : Int) + 1))
    else if b.val < 0x80 then
      if i = 9 ∧ b.val > 1 then (0, -((i : Int) + 1))
      else ((x ||| ((b.val <<< s) % 18446744073709551616)), (i : Int) + 1)
    else UvarintLoop rest (i + 1) (x ||| (((b.val &&& 0x7f) <<< s) % 18446744073709551616)) (s + 7)

/-- Go `binary.Uvarint(buf)`: the decoded value and the number of bytes read;
`(0, 0)` when `buf` is too small, `(0, -n)` on a 64-bit overflow. -/
def Uvarint (buf : List Byte) : Nat × Int := UvarintLoop buf 0 0 0

/-- Loop of Go `binary.PutUvarint(buf, x)`: the new contents of `buf` and the
returned count; an index past `len(buf)` panics. -/
def PutUvarintLoop (buf : List Byte) (i : Nat) (x : Nat) : Option (List Byte × Int) :=
  if h : 0x80 ≤ x then
    if i < buf.length then PutUvarintLoop (buf.set i (orByte (byte x) 0x80)) (i + 1) (x >>> 7)
    else none
  else
    if i < buf.length then some (buf.set i (byte x), (i : Int) + 1) else none
termination_by x
decreasing_by
  simp only [Nat.shiftRight_eq_div_pow]
  exact Nat.div_lt_self (by omega) (by norm_num)

def PutUvarint (buf : List Byte) (x : Nat) : Option (List Byte × Int) :=
  PutUvarintLoop buf 0 x

/-- Loop of `getUvarintLen`: `for x >= 0x80 { x >>= 7; i++ }; return i + 1`. -/
def getUvarintLenLoop (x : Nat) (i : Int) : Int :=
  if h : 0x80 ≤ x then getUvarintLenLoop (x >>> 7) (wrapInt (i + 1))
  else wrapInt (i + 1)
termination_by x
decreasing_by
  simp only [Nat.shiftRight_eq_div_pow]
  exact Nat.div_lt_self (by omega) (by norm_num)

def getUvarintLen (x : Nat) : Int := getUvarintLenLoop x 0

namespace uvarintDecoder

/-- One iteration of the loop of `uvarintDecoder.Decode`. -/
def iter (buffer : Buffer) : Step :=
  match buffer.GetBytes with
  | none => Step.panic
  | some bytes =>
    let r := Uvarint bytes
    let bodyLen : Nat := r.1
    let headerLen : Int := r.2
    if wrapInt (intOfUint64 bodyLen + headerLen) > buffer.Cap then
      Step.ret (some (Error.illegalBodyLength bodyLen)) buffer
    else
      match buffer.Read headerLen (intOfUint64 bodyLen) with
      | none => Step.panic
      | some ((body, err), b1) =>
        if err = some Error.ErrNotEnough then Step.ret none b1
        else Step.next body b1

def Decode (fuel : Nat) (buffer : Buffer) : Exec :=
  runLoop iter fuel buffer

end uvarintDecoder

structure uvarintEncoder where
  writeBufferLen : Int
  deriving DecidableEq, Repr

def NewUvarintEncoder (writeBufferLen : Int) : Option uvarintEncoder :=
  if writeBufferLen ≤ 0 then none else some { writeBufferLen := writeBufferLen }

namespace uvarintEncoder

/-- The scratch slice `buffer` of `EncodeToWriter`, of length `l`; `pooled` is
the slice handed out by `writeBufferPool.Get()`. -/
def scratch (e : uvarintEncoder) (pooled : List Byte) (l : Int) : Option (List Byte) :=
  if l > e.writeBufferLen then
    -- make([]byte, l)
    if 0 ≤ l then some (List.replicate l.toNat 0) else none
  else
    -- obj.([]byte)[0:l]
    slice pooled 0 l

/-- The body of `EncodeToWriter` after `buffer` is chosen:
`PutUvarint(buffer, bytesLen)`, `copy(buffer[uvarintLen:], bytes)`, and the
bytes of `buffer` that are passed to `w.Write`. -/
def fill (buffer : List Byte) (bytesLen : Nat) (uvarintLen : Int) (bytes : List Byte) :
    Option (List Byte) :=
  match PutUvarint buffer bytesLen with
  | none => none
  | some r =>
    match slice r.1 uvarintLen (r.1.length : Int) with
    | none => none
    | some dst => some (r.1.take uvarintLen.toNat ++ copy dst bytes)

def EncodeToWriter (e : uvarintEncoder) (pooled : List Byte) (w : Writer)
    (bytes : List Byte) : Option EncodeResult :=
  match e.scratch pooled
      (wrapInt (getUvarintLen (uint64 (bytes.length : Int)) + (bytes.length : Int))) with
  | none => none
  | some buffer =>
    match fill buffer (uint64 (bytes.length : Int))
        (getUvarintLen (uint64 (bytes.length : Int))) bytes with
    | none => none
    | some out => some { writes := [out], err := w out }

end uvarintEncoder

/-! ## Wire formats, in the words of the specification -/

/-- The 2-byte big-endian unsigned encoding of `n`. -/
def BE16 (n : Nat) : List Byte := [byte (n / 256), byte (n % 256)]

/-- A fixed-header frame: 2-byte big-endian length, then the payload. -/
def frame (p : List Byte) : List Byte := BE16 p.length ++ p

/-- Wire bytes of a sequence of fixed-header frames. -/
def frames : List (List Byte) → List Byte
  | [] => []
  | p :: ps => frame p ++ frames ps

/-- Standard unsigned LEB128: 7 value bits per byte, least significant group
first, high bit set on every byte but the last. -/
def LEB128 (n : Nat) : List Byte :=
  if h : n < 128 then [byte n] else byte (n % 128 + 128) :: LEB128 (n / 128)
termination_by n
decreasing_by omega

/-- The window invariant of a `Buffer`, with the capacity a Go `int`. -/
def Buffer.Inv (b : Buffer) : Prop :=
  0 ≤ b.start ∧ b.start ≤ b.end_ ∧ b.end_ ≤ b.Cap ∧ b.Cap ≤ maxInt

instance (b : Buffer) : Decidable b.Inv := by
  unfold Buffer.Inv; infer_instance

/-- A reader that delivers exactly `frag` and reports `(len(frag), nil)`. -/
def fragReader (frag : List Byte) : Buffer.Reader :=
  fun _ => { data := frag, n := (frag.length : Int), err := none }

/-- Driver of the fragmentation scenario: for each fragment in turn, append it
with `ReadFromReader` and then call `headerLenDecoder.Decode` (header length 2);
the result lists the outcome of each `Decode` call. -/
def feedDecode (fuel : Nat) : Buffer → List (List Byte) → Option (List Exec)
  | _, [] => some []
  | b, f :: fs =>
    match b.ReadFromReader (fragReader f) with
    | none => none
    | some (_, b1) =>
      let r := headerLenDecoder.Decode { headerLen := 2 } fuel b1
      (feedDecode fuel r.buffer fs).map (fun rs => r :: rs)

/-- A sink that records nothing and reports the error `r`. -/
def constWriter (r : Option Error) : Writer := fun _ => r

/-! ## Concrete inputs used in the examples -/

/-- A 16-byte buffer holding two complete frames and an incomplete third. -/
def streamBuffer : Buffer :=
  { buf := [0, 3, 0x41, 0x42, 0x43, 0, 1, 9, 0, 5, 1, 0, 0, 0, 0, 0], start := 0, end_ := 11 }

/-- A 1024-byte buffer whose two valid bytes are a header declaring 2000. -/
def header2000Buffer : Buffer :=
  { buf := [0x07, 0xD0] ++ List.replicate 1022 0, start := 0, end_ := 2 }

/-- A 16-byte buffer with a partly consumed window. -/
def windowBuffer : Buffer :=
  { buf := [9, 8, 7, 6, 5, 4, 3, 2, 1, 0, 0, 0, 0, 0, 0, 0], start := 2, end_ := 7 }

/-- A 16-byte buffer whose window is a complete 10-byte varint of value
`2^64 - 1`. -/
def hugeVarintBuffer : Buffer :=
  { buf := [0xff, 0xff, 0xff, 0xff, 0xff, 0xff, 0xff, 0xff, 0xff, 0x01, 0, 0, 0, 0, 0, 0],
    start := 0, end_ := 10 }

/-- An 8-byte buffer holding the varint frame of the one-byte payload `A`. -/
def varintFrameBuffer : Buffer :=
  { buf := [0x01, 0x41, 0, 0, 0, 0, 0, 0], start := 0, end_ := 2 }

/-! ## Further definitions: `ReadFromFD`, wire formats of any width, inputs -/

/-- Method `ReadFromFD` of buffer.go; `read` stands for `syscall.Read(fd, ·)`:
what the call stores in the slice it is given and the `(n, err)` it returns. -/
def Buffer.ReadFromFD (b : Buffer) (read : Buffer.Reader) : Option (Option Error × Buffer) :=
  match b.reset with
  | none => none
  | some b1 =>
    match slice b1.buf b1.end_ (b1.buf.length : Int) with
    | none => none
    | some tail =>
      if (read tail).err ≠ none then
        some ((read tail).err,
          { b1 with buf := b1.buf.take b1.end_.toNat ++ copy tail (read tail).data })
      else if (read tail).n = 0 then
        some (some Error.EAGAIN,
          { b1 with buf := b1.buf.take b1.end_.toNat ++ copy tail (read tail).data })
      else
        some (none,
          { buf := b1.buf.take b1.end_.toNat ++ copy tail (read tail).data,
            start := b1.start, end_ := wrapInt (b1.end_ + (read tail).n) })

/-- The receiver of a call `Read(offset, limit)` when the call is over, whether
it returned or panicked.  A failed length check changes nothing.  Otherwise
`b.start += offset` runs first; when the slice expression
`b.buf[b.start : b.start+limit]` panics the receiver is left there, and when it
does not, `b.start += limit` follows. -/
def Buffer.afterRead (b : Buffer) (offset limit : Int) : Buffer :=
  if b.Len < wrapInt (offset + limit) then b
  else
    match slice b.buf (wrapInt (b.start + offset))
        (wrapInt (wrapInt (b.start + offset) + limit)) with
    | none => { b with start := wrapInt (b.start + offset) }
    | some _ => { b with start := wrapInt (wrapInt (b.start + offset) + limit) }

/-- The backing array of `buffer` when the body of `EncodeToWriter` is over,
whether it returned or panicked: the array that `fill` works on, with every
byte the body has stored by then.  `fill` returns its first `n` bytes. -/
def headerLenEncoder.fillArr (e : headerLenEncoder) (arr : List Byte) (n : Int)
    (bytes : List Byte) : List Byte :=
  match slice arr 0 2 with
  | none => arr
  | some hdr =>
    match BigEndianPutUint16 hdr (uint16 (bytes.length : Int)) with
    | none => arr
    | some hdr1 =>
      match slice ((copy arr hdr1).take n.toNat) e.headerLen n with
      | none => copy arr hdr1
      | some dst =>
        (copy arr hdr1).take e.headerLen.toNat ++ copy dst bytes
          ++ (copy arr hdr1).drop n.toNat

/-- The pooled slice as `EncodeToWriter` hands it back with the deferred
`e.writeBufferPool.Put(obj)`, which also runs when the call panics; `pooled`
is what `Get()` handed out.  A payload too long for the pool takes the `make`
branch and leaves the pool alone. -/
def headerLenEncoder.pooledAfter (e : headerLenEncoder) (pooled bytes : List Byte) :
    List Byte :=
  if (bytes.length : Int) ≤ wrapInt (e.writeBufferLen - e.headerLen) then
    if 0 ≤ wrapInt ((bytes.length : Int) + e.headerLen)
        ∧ wrapInt ((bytes.length : Int) + e.headerLen) ≤ (pooled.length : Int) then
      e.fillArr pooled (wrapInt ((bytes.length : Int) + e.headerLen)) bytes
    else pooled
  else pooled

/-- The contents a slice of the encoder's pool can have when `Get()` hands it
out: fresh from `New` (`make([]byte, writeBufferLen)`, all zero), or handed
back by an earlier `EncodeToWriter` call of this encoder, for any payload.
The pool is a private field of the encoder and an `io.Writer` must neither
modify nor retain the slice it is given, so nothing else stores into it. -/
inductive headerLenEncoder.InPool (e : headerLenEncoder) : List Byte → Prop where
  | fresh : headerLenEncoder.InPool e (List.replicate e.writeBufferLen.toNat 0)
  | put (pooled bytes : List Byte) :
      headerLenEncoder.InPool e pooled → headerLenEncoder.InPool e (e.pooledAfter pooled bytes)

/-- The arguments `(offset, limit)` of the `buffer.Read` call that one iteration
of `uvarintDecoder.Decode` issues, when the iteration reaches that call. -/
def uvarintDecoder.readArgs (buffer : Buffer) : Option (Int × Int) :=
  match buffer.GetBytes with
  | none => none
  | some bytes =>
    if wrapInt (intOfUint64 (Uvarint bytes).1 + (Uvarint bytes).2) > buffer.Cap then none
    else some ((Uvarint bytes).2, intOfUint64 (Uvarint bytes).1)

/-- The `k`-byte big-endian unsigned encoding of `n`, most significant byte
first. -/
def BE : Nat → Nat → List Byte
  | 0, _ => []
  | k + 1, n => BE k (n / 256) ++ [byte (n % 256)]

/-- The big-endian unsigned value of a byte string. -/
def BEvalue (bs : List Byte) : Nat := bs.foldl (fun acc b => acc * 256 + b.val) 0

/-- A reader that stores three bytes and reports them together with an error
(as `io.Reader` allows for the last chunk of a stream: `(3, io.EOF)`). -/
def partialReader : Buffer.Reader :=
  fun _ => { data := [1, 2, 3], n := 3, err := some (Error.other 0) }

/-- A 32-byte buffer with 11 consumed bytes, whose window is 11 continuation
bytes: a varint of more than 10 bytes. -/
def overlongVarintBuffer : Buffer :=
  { buf := List.replicate 11 0 ++ List.replicate 11 0x80 ++ List.replicate 10 0,
    start := 11, end_ := 22 }

/-- An 8-byte buffer with one valid byte. -/
def oneByteBuffer : Buffer :=
  { buf := [5, 0, 0, 0, 0, 0, 0, 0], start := 0, end_ := 1 }

/-- An 8-byte buffer whose window is a 3-byte big-endian header of value 2
followed by two payload bytes. -/
def header3Buffer : Buffer :=
  { buf := [0, 0, 2, 0x41, 0x42, 0, 0, 0], start := 0, end_ := 5 }

/-! # Theorems -/

set_option maxRecDepth 100000

/-! ## Basic facts about the machine model -/

theorem wrapInt_eq (x : Int) (h1 : -9223372036854775808 ≤ x) (h2 : x ≤ 9223372036854775807) :
    wrapInt x = x := by
  unfold wrapInt
  omega

theorem slice_mid (pre mid post : List Byte) :
    slice (pre ++ mid ++ post) (pre.length : Int) ((pre.length : Int) + (mid.length : Int))
      = some mid := by
  unfold slice
  have hc : (0 : Int) ≤ (pre.length : Int) ∧ (pre.length : Int) ≤ (pre.length : Int) + (mid.length : Int)
      ∧ (pre.length : Int) + (mid.length : Int) ≤ ((pre ++ mid ++ post).length : Int) := by
    simp only [List.length_append, Nat.cast_add]
    omega
  rw [if_pos hc]
  have h1 : ((pre.length : Int)).toNat = pre.length := by simp
  have h2 : ((pre.length : Int) + (mid.length : Int) - (pre.length : Int)).toNat = mid.length := by
    simp
  rw [h1, h2, List.append_assoc, List.drop_left, List.take_left]

theorem slice_decomp (s w : List Byte) (lo hi : Int) (h : slice s lo hi = some w) :
    ∃ pre post, s = pre ++ w ++ post ∧ (pre.length : Int) = lo
      ∧ (pre.length : Int) + (w.length : Int) = hi := by
  unfold slice at h
  split at h
  · rename_i hc
    obtain ⟨h0, h1, h2⟩ := hc
    have hw : w = (s.drop lo.toNat).take (hi - lo).toNat := by
      injection h with h; exact h.symm
    have hlo : lo.toNat ≤ s.length := by omega
    have hlen : w.length = (hi - lo).toNat := by
      rw [hw, List.length_take, List.length_drop]; omega
    refine ⟨s.take lo.toNat, (s.drop lo.toNat).drop (hi - lo).toNat, ?_, ?_, ?_⟩
    · rw [hw, List.append_assoc, List.take_append_drop, List.take_append_drop]
    · rw [List.length_take]; omega
    · rw [List.length_take, hlen]; omega
  · cases h

theorem slice_length (s w : List Byte) (lo hi : Int) (h : slice s lo hi = some w) :
    0 ≤ lo ∧ (w.length : Int) = hi - lo ∧ hi ≤ (s.length : Int) := by
  obtain ⟨pre, post, hs, h1, h2⟩ := slice_decomp s w lo hi h
  subst hs
  simp only [List.length_append, Nat.cast_add]
  omega

/-- A buffer in canonical form: `pre` consumed, `w` the valid window, `post`
the free tail. -/
theorem Buffer.canonical (b : Buffer) (w : List Byte) (h : b.GetBytes = some w) :
    ∃ pre post, b = { buf := pre ++ w ++ post, start := (pre.length : Int),
                      end_ := (pre.length : Int) + (w.length : Int) } := by
  obtain ⟨pre, post, hs, h1, h2⟩ := slice_decomp b.buf w b.start b.end_ h
  refine ⟨pre, post, ?_⟩
  cases b
  simp only at hs h1 h2
  subst hs
  subst h1
  subst h2
  rfl

theorem Buffer.GetBytes_total (b : Buffer) (h : b.Inv) : ∃ w, b.GetBytes = some w := by
  obtain ⟨h0, h1, h2, _⟩ := h
  unfold Buffer.GetBytes slice
  unfold Buffer.Cap at h2
  rw [if_pos ⟨h0, h1, h2⟩]
  exact ⟨_, rfl⟩

theorem BigEndianUint16_eq (h0 h1 : Byte) (rest : List Byte) :
    BigEndianUint16 (h0 :: h1 :: rest) = some (h0.val * 256 + h1.val) := by
  unfold BigEndianUint16
  have e : h1.val ||| (h0.val <<< 8) = h0.val * 256 + h1.val := by
    have hlt : h1.val < 2 ^ 8 := by have := h1.isLt; omega
    have hor := Nat.mul_add_lt_is_or hlt h0.val
    rw [Nat.shiftLeft_eq, Nat.lor_comm, Nat.mul_comm h0.val (2 ^ 8), ← hor]
  have hlt : h0.val * 256 + h1.val < 65536 := by
    have := h0.isLt
    have := h1.isLt
    omega
  show some ((h1.val ||| (h0.val <<< 8)) % 65536) = some (h0.val * 256 + h1.val)
  rw [e, Nat.mod_eq_of_lt hlt]


theorem Buffer.Len_eq (b : Buffer) (h : b.Inv) : b.Len = b.end_ - b.start := by
  obtain ⟨h0, h1, h2, h3⟩ := h
  unfold Buffer.Cap at h2 h3
  unfold maxInt at h3
  unfold Buffer.Len
  exact wrapInt_eq _ (by omega) (by omega)

theorem Buffer.Read_short (b : Buffer) (skip take : Int)
    (hs : 0 ≤ skip) (ht : 0 ≤ take) (hsum : skip + take ≤ maxInt)
    (hlt : b.Len < skip + take) :
    b.Read skip take = some (([], some Error.ErrNotEnough), b) := by
  unfold maxInt at hsum
  unfold Buffer.Read
  rw [wrapInt_eq (skip + take) (by omega) (by omega), if_pos hlt]

theorem Buffer.Read_enough (b : Buffer) (skip take : Int) (hinv : b.Inv)
    (hs : 0 ≤ skip) (ht : 0 ≤ take) (hge : skip + take ≤ b.Len) :
    b.Read skip take
      = some (((b.buf.drop (b.start + skip).toNat).take take.toNat, none),
              { b with start := b.start + skip + take }) := by
  have hlen := Buffer.Len_eq b hinv
  obtain ⟨h0, h1, h2, h3⟩ := hinv
  unfold Buffer.Cap at h2 h3
  unfold maxInt at h3
  rw [hlen] at hge
  unfold Buffer.Read
  rw [hlen, wrapInt_eq (skip + take) (by omega) (by omega), if_neg (by omega)]
  simp only
  rw [wrapInt_eq (b.start + skip) (by omega) (by omega),
    wrapInt_eq (b.start + skip + take) (by omega) (by omega)]
  unfold slice
  rw [if_pos ⟨by omega, by omega, by omega⟩]
  have e : (b.start + skip + take - (b.start + skip)).toNat = take.toNat := by
    congr 1; omega
  rw [e]


theorem Buffer.Seek_enough (b : Buffer) (k : Int) (hinv : b.Inv) (hk : 0 ≤ k)
    (hge : k ≤ b.Len) :
    b.Seek k = some ((b.buf.drop b.start.toNat).take k.toNat, none) := by
  have hlen := Buffer.Len_eq b hinv
  obtain ⟨h0, h1, h2, h3⟩ := hinv
  unfold Buffer.Cap at h2 h3
  unfold maxInt at h3
  rw [hlen] at hge
  unfold Buffer.Seek
  rw [hlen, if_pos (by omega), wrapInt_eq (b.start + k) (by omega) (by omega)]
  unfold slice
  rw [if_pos ⟨by omega, by omega, by omega⟩]
  have e : (b.start + k - b.start).toNat = k.toNat := by
    congr 1; omega
  rw [e]

theorem Buffer.Seek_short (b : Buffer) (k : Int) (hlt : b.Len < k) :
    b.Seek k = some ([], some Error.ErrNotEnough) := by
  unfold Buffer.Seek
  rw [if_neg (by omega)]

/-- Bytes `[j, j+k)` of the valid window, read from the backing storage. -/
theorem Buffer.window_sub (b : Buffer) (w : List Byte) (h : b.GetBytes = some w)
    (j k : Nat) (hjk : j + k ≤ w.length) :
    (b.buf.drop (b.start + (j : Int)).toNat).take k = (w.drop j).take k := by
  obtain ⟨pre, post, hb⟩ := Buffer.canonical b w h
  subst hb
  simp only
  have e : ((pre.length : Int) + (j : Int)).toNat = pre.length + j := by omega
  rw [e, List.append_assoc, List.drop_append, List.drop_append_of_le_length (by omega),
    List.take_append_of_le_length (by rw [List.length_drop]; omega)]

theorem Buffer.window_length (b : Buffer) (w : List Byte) (h : b.GetBytes = some w) :
    (w.length : Int) = b.end_ - b.start := by
  have := slice_length b.buf w b.start b.end_ h
  omega

/-- Consuming the first `k` bytes of the window leaves the rest of it. -/
theorem Buffer.GetBytes_advance (b : Buffer) (w : List Byte) (h : b.GetBytes = some w)
    (k : Nat) (hk : k ≤ w.length) :
    Buffer.GetBytes { b with start := b.start + (k : Int) } = some (w.drop k) := by
  obtain ⟨pre, post, hb⟩ := Buffer.canonical b w h
  subst hb
  unfold Buffer.GetBytes
  simp only
  have hw : w = w.take k ++ w.drop k := (List.take_append_drop k w).symm
  have e1 : pre ++ w ++ post = (pre ++ w.take k) ++ w.drop k ++ post := by
    rw [List.append_assoc pre (w.take k), List.take_append_drop]
  have e2 : (pre.length : Int) + (k : Int) = ((pre ++ w.take k).length : Int) := by
    rw [List.length_append, List.length_take, Nat.min_eq_left hk]; push_cast; rfl
  have e3 : (pre.length : Int) + (w.length : Int)
      = ((pre ++ w.take k).length : Int) + ((w.drop k).length : Int) := by
    rw [List.length_append, List.length_take, Nat.min_eq_left hk, List.length_drop]
    push_cast
    omega
  rw [e1, e2, e3]
  exact slice_mid _ _ _

theorem BE16_value (n : Nat) (hn : n ≤ 65535) :
    (byte (n / 256)).val * 256 + (byte (n % 256)).val = n := by
  unfold byte
  simp only
  omega


/-- One iteration of the fixed-header loop on a window that holds a header. -/
theorem headerLenDecoder.iter_header (d : headerLenDecoder) (hd : d.headerLen = 2)
    (b : Buffer) (h0 h1 : Byte) (tail : List Byte)
    (hinv : b.Inv) (hw : b.GetBytes = some (h0 :: h1 :: tail)) :
    headerLenDecoder.iter d b
      = if (h0.val * 256 + h1.val = 0) ∨ ((h0.val * 256 + h1.val : Nat) : Int) > b.Cap - 2 then
          Step.ret (some (Error.illegalHeaderLength ((h0.val * 256 + h1.val : Nat) : Int))) b
        else if tail.length < h0.val * 256 + h1.val then Step.ret none b
        else Step.next (tail.take (h0.val * 256 + h1.val))
          { b with start := b.start + 2 + ((h0.val * 256 + h1.val : Nat) : Int) } := by
  have hlen := Buffer.Len_eq b hinv
  have hwl := Buffer.window_length b _ hw
  have hinv2 := hinv
  obtain ⟨i0, i1, i2, i3⟩ := hinv2
  unfold maxInt at i3
  simp only [List.length_cons] at hwl
  have hseek : b.Seek 2 = some ([h0, h1], none) := by
    rw [Buffer.Seek_enough b 2 hinv (by omega) (by omega)]
    have := Buffer.window_sub b _ hw 0 2 (by simp)
    simp only [Nat.cast_zero, add_zero, List.drop_zero] at this
    have e : (2 : Int).toNat = 2 := rfl
    rw [e, this]
    rfl
  have hbe := BigEndianUint16_eq h0 h1 []
  unfold headerLenDecoder.iter
  rw [hd, hseek]
  dsimp only
  rw [if_neg (by simp), hbe]
  dsimp only
  rw [wrapInt_eq (b.Cap - 2) (by omega) (by omega)]
  by_cases hbad : (h0.val * 256 + h1.val = 0) ∨ ((h0.val * 256 + h1.val : Nat) : Int) > b.Cap - 2
  · rw [if_pos hbad, if_pos]
    rcases hbad with h | h
    · left; exact_mod_cast h
    · right; exact h
  · rw [if_neg hbad, if_neg]
    swap
    · intro h
      apply hbad
      rcases h with h | h
      · left; exact_mod_cast h
      · right; exact h
    by_cases hshort : tail.length < h0.val * 256 + h1.val
    · rw [if_pos hshort, Buffer.Read_short b 2 _ (by omega) (by omega) (by unfold maxInt; omega)
        (by omega)]
      simp
    · have hrd := Buffer.Read_enough b 2 ((h0.val * 256 + h1.val : Nat) : Int) hinv
        (by omega) (by omega) (by omega)
      rw [if_neg hshort, hrd]
      have := Buffer.window_sub b _ hw 2 (h0.val * 256 + h1.val)
        (by simp only [List.length_cons]; omega)
      simp only [List.drop_succ_cons, List.drop_zero] at this
      simp only [Int.toNat_ofNat, Nat.cast_ofNat] at this ⊢
      rw [this]
      simp

theorem headerLenDecoder.iter_short (d : headerLenDecoder) (hd : d.headerLen = 2)
    (b : Buffer) (w : List Byte)
    (hinv : b.Inv) (hw : b.GetBytes = some w) (hlt : w.length < 2) :
    headerLenDecoder.iter d b = Step.ret none b := by
  have hlen := Buffer.Len_eq b hinv
  have hwl := Buffer.window_length b _ hw
  unfold headerLenDecoder.iter
  rw [hd, Buffer.Seek_short b 2 (by omega)]
  simp


/-- What may follow the last complete frame: fewer than two bytes, or a header
declaring a legal length `n` followed by fewer than `n` bytes. -/
theorem headerLenDecoder.iter_rest (b : Buffer) (rest : List Byte) (hinv : b.Inv)
    (hw : b.GetBytes = some rest)
    (hrest : rest.length < 2 ∨ ∃ n tail, rest = BE16 n ++ tail ∧ 1 ≤ n ∧ n ≤ 65535
      ∧ (n : Int) ≤ b.Cap - 2 ∧ tail.length < n) :
    headerLenDecoder.iter { headerLen := 2 } b = Step.ret none b := by
  rcases hrest with h | ⟨n, tail, hr, h1, h2, h3, h4⟩
  · exact headerLenDecoder.iter_short _ rfl b rest hinv hw h
  · subst hr
    have hv := BE16_value n h2
    have := headerLenDecoder.iter_header { headerLen := 2 } rfl b (byte (n / 256))
      (byte (n % 256)) tail hinv hw
    rw [this, hv, if_neg (by omega), if_pos h4]

theorem headerLenDecoder.iter_frame (b : Buffer) (p rest : List Byte) (hinv : b.Inv)
    (hw : b.GetBytes = some (frame p ++ rest))
    (h1 : 1 ≤ p.length) (h2 : p.length ≤ 65535) (h3 : (p.length : Int) ≤ b.Cap - 2) :
    headerLenDecoder.iter { headerLen := 2 } b
      = Step.next p { b with start := b.start + ((2 + p.length : Nat) : Int) } := by
  have hv := BE16_value p.length h2
  have hw2 : b.GetBytes = some (byte (p.length / 256) :: byte (p.length % 256) :: (p ++ rest)) := by
    rw [hw]; rfl
  have := headerLenDecoder.iter_header { headerLen := 2 } rfl b (byte (p.length / 256))
    (byte (p.length % 256)) (p ++ rest) hinv hw2
  rw [this, hv, if_neg (by omega), if_neg (by rw [List.length_append]; omega),
    List.take_left]
  congr 2
  push_cast
  omega

theorem headerLenDecoder.Decode_frames (ps : List (List Byte)) :
    ∀ (b : Buffer) (rest : List Byte), b.Inv →
      (∀ p ∈ ps, 1 ≤ p.length ∧ p.length ≤ 65535 ∧ (p.length : Int) ≤ b.Cap - 2) →
      b.GetBytes = some (frames ps ++ rest) →
      (rest.length < 2 ∨ ∃ n tail, rest = BE16 n ++ tail ∧ 1 ≤ n ∧ n ≤ 65535
        ∧ (n : Int) ≤ b.Cap - 2 ∧ tail.length < n) →
      ∀ fuel, ps.length < fuel →
        headerLenDecoder.Decode { headerLen := 2 } fuel b
          = { status := Status.returned none, calls := ps,
              buffer := { b with start := b.end_ - (rest.length : Int) } } := by
  induction ps with
  | nil =>
    intro b rest hinv _ hw hrest fuel hfuel
    obtain ⟨f, rfl⟩ : ∃ f, fuel = f + 1 := ⟨fuel - 1, by simp at hfuel; omega⟩
    simp only [frames, List.nil_append] at hw
    have hl := Buffer.window_length b rest hw
    unfold headerLenDecoder.Decode runLoop
    rw [headerLenDecoder.iter_rest b rest hinv hw hrest]
    have e : b.end_ - (rest.length : Int) = b.start := by omega
    rw [e]
  | cons p ps ih =>
    intro b rest hinv hps hw hrest fuel hfuel
    obtain ⟨f, rfl⟩ : ∃ f, fuel = f + 1 := ⟨fuel - 1, by simp at hfuel; omega⟩
    obtain ⟨hp1, hp2, hp3⟩ := hps p (List.mem_cons_self _ _)
    have hw1 : b.GetBytes = some (frame p ++ (frames ps ++ rest)) := by
      rw [hw, frames, List.append_assoc]
    have hstep := headerLenDecoder.iter_frame b p (frames ps ++ rest) hinv hw1 hp1 hp2 hp3
    have hadv := Buffer.GetBytes_advance b _ hw1 (2 + p.length)
      (by simp [frame, BE16]; omega)
    have hdrop : (frame p ++ (frames ps ++ rest)).drop (2 + p.length) = frames ps ++ rest := by
      have : (frame p).length = 2 + p.length := by simp [frame, BE16]; omega
      rw [← this, List.drop_left]
    rw [hdrop] at hadv
    have hl := Buffer.window_length b _ hw1
    have hfl : (frame p).length = 2 + p.length := by simp [frame, BE16]; omega
    rw [List.length_append, hfl] at hl
    have hinv1 : Buffer.Inv { b with start := b.start + ((2 + p.length : Nat) : Int) } := by
      obtain ⟨i0, i1, i2, i3⟩ := hinv
      refine ⟨?_, ?_, i2, i3⟩
      · simp only; omega
      · simp only; push_cast at hl ⊢; omega
    have hrec := ih { b with start := b.start + ((2 + p.length : Nat) : Int) } rest hinv1
      (fun q hq => hps q (List.mem_cons_of_mem _ hq)) hadv hrest f
      (by simp only [List.length_cons] at hfuel; omega)
    unfold headerLenDecoder.Decode at hrec ⊢
    unfold runLoop
    rw [hstep]
    simp only
    rw [hrec]


theorem byte_mod (n : Nat) : byte (n % 256) = byte n := by
  unfold byte
  apply Fin.ext
  simp

theorem uint16_header (n : Nat) (hn : n ≤ 65535) :
    [byte (uint16 (n : Int) >>> 8), byte (uint16 (n : Int))] = BE16 n := by
  have e : uint16 (n : Int) = n := by
    unfold uint16
    omega
  rw [e, Nat.shiftRight_eq_div_pow]
  unfold BE16
  rw [byte_mod]

/-- Filling a scratch array of capacity at least `len(bytes) + 2`. -/
theorem headerLenEncoder.fill_eq (e : headerLenEncoder) (he : e.headerLen = 2)
    (arr bytes : List Byte)
    (hn : bytes.length ≤ 65535) (hcap : bytes.length + 2 ≤ arr.length) :
    e.fill arr ((bytes.length : Int) + 2) bytes = some (frame bytes) := by
  obtain ⟨a0, a1, rest, rfl⟩ : ∃ a0 a1 rest, arr = a0 :: a1 :: rest := by
    match arr, hcap with
    | a0 :: a1 :: rest, _ => exact ⟨a0, a1, rest, rfl⟩
    | [_], h => simp at h
    | [], h => simp at h
  simp only [List.length_cons] at hcap
  have hs : slice (a0 :: a1 :: rest) 0 2 = some [a0, a1] := slice_mid [] [a0, a1] rest
  have hput : BigEndianPutUint16 [a0, a1] (uint16 (bytes.length : Int))
      = some (BE16 bytes.length) := by
    rw [← uint16_header bytes.length hn]
    rfl
  have hc : copy (a0 :: a1 :: rest) (BE16 bytes.length) = BE16 bytes.length ++ rest := by
    simp [copy, BE16]
  have e2 : ((bytes.length : Int) + 2).toNat = bytes.length + 2 := by omega
  have e3 : (2 : Int).toNat = 2 := rfl
  have ht : (BE16 bytes.length ++ rest).take (bytes.length + 2)
      = BE16 bytes.length ++ rest.take bytes.length := rfl
  have hl : (rest.take bytes.length).length = bytes.length := by
    rw [List.length_take]; omega
  have hs2 : slice (BE16 bytes.length ++ rest.take bytes.length) 2 ((bytes.length : Int) + 2)
      = some (rest.take bytes.length) := by
    have := slice_mid (BE16 bytes.length) (rest.take bytes.length) []
    rw [hl, List.append_nil] at this
    have e : ((BE16 bytes.length).length : Int) = 2 := rfl
    rw [e] at this
    rw [← this, Int.add_comm]
  have hcp : copy (rest.take bytes.length) bytes = bytes := by
    unfold copy
    rw [hl, List.take_length, List.drop_eq_nil_of_le (by omega), List.append_nil]
  have h5 : (BE16 bytes.length ++ rest).take 2 = BE16 bytes.length := rfl
  have h6 : (BE16 bytes.length ++ bytes ++ (BE16 bytes.length ++ rest).drop (bytes.length + 2)).take
      (bytes.length + 2) = frame bytes := by
    unfold frame
    apply List.take_left'
    rw [List.length_append]
    have : (BE16 bytes.length).length = 2 := rfl
    omega
  unfold headerLenEncoder.fill
  rw [hs]
  dsimp only
  rw [hput]
  dsimp only
  rw [he, hc, e2, e3, ht, hs2]
  dsimp only
  rw [hcp, h5, h6]

theorem headerLenEncoder.scratch_eq (e : headerLenEncoder) (he : e.headerLen = 2)
    (pooled : List Byte) (l : Nat) (hwl : e.writeBufferLen ≤ maxInt)
    (hpool : (pooled.length : Int) = e.writeBufferLen) (hn : l ≤ 65535) :
    ∃ arr, e.scratch pooled (l : Int) = some arr ∧ l + 2 ≤ arr.length := by
  unfold maxInt at hwl
  have hpos : (0 : Int) ≤ e.writeBufferLen := by omega
  unfold headerLenEncoder.scratch
  rw [he, wrapInt_eq ((l : Int) + 2) (by omega) (by omega),
    wrapInt_eq (e.writeBufferLen - 2) (by omega) (by omega)]
  by_cases hb : (l : Int) ≤ e.writeBufferLen - 2
  · rw [if_pos hb, if_pos ⟨by omega, by omega⟩]
    exact ⟨pooled, rfl, by omega⟩
  · rw [if_neg hb, if_pos (by omega)]
    refine ⟨_, rfl, ?_⟩
    rw [List.length_replicate]
    omega

theorem headerLenEncoder.EncodeToWriter_eq (e : headerLenEncoder) (he : e.headerLen = 2)
    (pooled bytes : List Byte) (w : Writer) (hwl : e.writeBufferLen ≤ maxInt)
    (hpool : (pooled.length : Int) = e.writeBufferLen) (hn : bytes.length ≤ 65535) :
    headerLenEncoder.EncodeToWriter e pooled w bytes
      = some { writes := [frame bytes], err := w (frame bytes) } := by
  obtain ⟨arr, hsc, hlen⟩ := headerLenEncoder.scratch_eq e he pooled bytes.length hwl hpool hn
  have hfill := headerLenEncoder.fill_eq e he arr bytes hn hlen
  unfold headerLenEncoder.EncodeToWriter
  rw [hsc]
  dsimp only
  rw [he, wrapInt_eq ((bytes.length : Int) + 2) (by omega) (by omega), hfill]


/-- Appending a fragment to a compacted buffer whose free tail has room. -/
theorem Buffer.ReadFromReader_frag (acc junk frag : List Byte)
    (hroom : frag.length ≤ junk.length)
    (hcap : ((acc ++ junk).length : Int) ≤ maxInt) :
    Buffer.ReadFromReader { buf := acc ++ junk, start := 0, end_ := (acc.length : Int) }
        (fragReader frag)
      = some (((frag.length : Int), none),
          { buf := (acc ++ frag) ++ junk.drop frag.length, start := 0,
            end_ := ((acc ++ frag).length : Int) }) := by
  rw [List.length_append, Nat.cast_add] at hcap
  unfold maxInt at hcap
  unfold Buffer.ReadFromReader Buffer.reset
  dsimp only
  rw [if_pos rfl]
  dsimp only
  have hs : slice (acc ++ junk) (acc.length : Int) ((acc ++ junk).length : Int) = some junk := by
    have := slice_mid acc junk []
    simp only [List.append_nil] at this
    rw [← this, List.length_append, Nat.cast_add]
  rw [hs]
  dsimp only [fragReader]
  rw [if_neg (by simp)]
  have hc : copy junk frag = frag ++ junk.drop frag.length := by
    unfold copy
    rw [List.take_of_length_le hroom]
  have ht : (acc ++ junk).take (acc.length : Int).toNat = acc := by
    have : (acc.length : Int).toNat = acc.length := by simp
    rw [this, List.take_left]
  rw [hc, ht, wrapInt_eq _ (by omega) (by omega), List.length_append, Nat.cast_add,
    List.append_assoc]

/-- Feed each fragment in turn: `ReadFromReader`, then `Decode`; the list
holds the outcome of each `Decode` call. -/
theorem feedDecode_cons (fuel : Nat) (b b1 : Buffer) (f : List Byte) (fs : List (List Byte))
    (r : Int × Option Error) (h : b.ReadFromReader (fragReader f) = some (r, b1)) :
    feedDecode fuel b (f :: fs)
      = (feedDecode fuel (headerLenDecoder.Decode { headerLen := 2 } fuel b1).buffer fs).map
          (fun rs => headerLenDecoder.Decode { headerLen := 2 } fuel b1 :: rs) := by
  rw [feedDecode, h]


/-- A proper prefix of a frame is a benign rest: too short for a header, or a
header followed by less than the declared payload. -/
theorem frame_prefix_rest (p acc more : List Byte) (h : acc ++ more = frame p)
    (hmore : more ≠ []) :
    acc.length < 2 ∨ ∃ tail, acc = BE16 p.length ++ tail ∧ tail.length < p.length := by
  by_cases hlt : acc.length < 2
  · exact Or.inl hlt
  · right
    unfold frame at h
    rcases List.append_eq_append_iff.mp h with ⟨t, ht1, ht2⟩ | ⟨t, ht1, ht2⟩
    · have hl := congrArg List.length ht1
      rw [List.length_append] at hl
      have h2 : (BE16 p.length).length = 2 := rfl
      have ht : t = [] := List.eq_nil_of_length_eq_zero (by omega)
      subst ht
      rw [List.append_nil] at ht1
      refine ⟨[], by rw [List.append_nil]; exact ht1.symm, ?_⟩
      rw [List.nil_append] at ht2
      have hml : 0 < more.length := List.length_pos.mpr hmore
      rw [ht2] at hml
      exact hml
    · refine ⟨t, ht1, ?_⟩
      have hl := congrArg List.length ht2
      rw [List.length_append] at hl
      have hml : 0 < more.length := List.length_pos.mpr hmore
      omega

theorem feedDecode_frame (p : List Byte) (h1 : 1 ≤ p.length) (h2 : p.length ≤ 65535)
    (fuel : Nat) (hfuel : 2 ≤ fuel) (frags : List (List Byte)) :
    ∀ (acc junk : List Byte), frags ≠ [] → (∀ f ∈ frags, f ≠ []) →
      acc ++ frags.flatten = frame p →
      frags.flatten.length ≤ junk.length →
      ((acc ++ junk).length : Int) ≤ maxInt →
      p.length + 2 ≤ (acc ++ junk).length →
      ∃ execs, feedDecode fuel { buf := acc ++ junk, start := 0, end_ := (acc.length : Int) } frags
          = some execs
        ∧ execs.map (fun r => r.status) = List.replicate frags.length (Status.returned none)
        ∧ execs.map (fun r => r.calls) = List.replicate (frags.length - 1) [] ++ [[p]] := by
  induction frags with
  | nil => intro acc junk hne; exact absurd rfl hne
  | cons f fs ih =>
    intro acc junk _ hall hjoin hroom hcap hp3
    rw [List.flatten_cons] at hjoin hroom
    rw [List.length_append] at hroom
    have hread := Buffer.ReadFromReader_frag acc junk f (by omega) hcap
    rw [feedDecode_cons fuel _ _ f fs _ hread]
    have hlen : ((acc ++ f) ++ junk.drop f.length).length = (acc ++ junk).length := by
      simp only [List.length_append, List.length_drop]
      omega
    obtain ⟨b1, hb1⟩ : ∃ b1 : Buffer, b1 =
        { buf := (acc ++ f) ++ junk.drop f.length, start := 0,
          end_ := ((acc ++ f).length : Int) } := ⟨_, rfl⟩
    rw [← hb1]
    have hcapb : b1.Cap = ((acc ++ junk).length : Int) := by
      rw [hb1]
      show ((((acc ++ f) ++ junk.drop f.length).length : Nat) : Int) = _
      rw [hlen]
    have hinv : b1.Inv := by
      refine ⟨?_, ?_, ?_, ?_⟩
      · rw [hb1]
      · rw [hb1]; exact Int.ofNat_nonneg _
      · rw [hcapb, hb1]
        show ((acc ++ f).length : Int) ≤ ((acc ++ junk).length : Int)
        rw [List.length_append, List.length_append]
        omega
      · rw [hcapb]
        exact hcap
    have hget : b1.GetBytes = some (acc ++ f) := by
      rw [hb1]
      have := slice_mid [] (acc ++ f) (junk.drop f.length)
      simp only [List.nil_append, List.length_nil, Nat.cast_zero, zero_add] at this
      exact this
    cases fs with
    | nil =>
      rw [List.flatten_nil, List.append_nil] at hjoin
      have hdec := headerLenDecoder.Decode_frames [p] _ [] hinv
        (by
          intro q hq
          rw [List.mem_singleton] at hq
          subst hq
          refine ⟨h1, h2, ?_⟩
          rw [hcapb]
          omega)
        (by rw [hget, hjoin]; simp [frames])
        (Or.inl (by simp)) fuel (by simp; omega)
      rw [hdec]
      refine ⟨_, rfl, ?_, ?_⟩
      · rfl
      · rfl
    | cons g gs =>
      have hg : g ≠ [] := hall g (by simp)
      have hmore : (g :: gs).flatten ≠ [] := by
        rw [List.flatten_cons]
        intro h
        exact hg (List.append_eq_nil.mp h).1
      rw [← List.append_assoc] at hjoin
      have hrest := frame_prefix_rest p (acc ++ f) _ hjoin hmore
      have hdec := headerLenDecoder.Decode_frames [] _ (acc ++ f) hinv
        (by intro q hq; cases hq)
        (by rw [hget]; rfl)
        (by
          rcases hrest with h | ⟨tail, ht1, ht2⟩
          · exact Or.inl h
          · refine Or.inr ⟨p.length, tail, ht1, h1, h2, ?_, ht2⟩
            rw [hcapb]
            omega)
        fuel (by simp; omega)
      rw [hdec]
      have hb2 : ({ b1 with start := b1.end_ - ((acc ++ f).length : Int) } : Buffer)
          = { buf := (acc ++ f) ++ junk.drop f.length, start := 0,
              end_ := ((acc ++ f).length : Int) } := by
        rw [hb1]
        simp only [sub_self]
      rw [hb2]
      have hih := ih (acc ++ f) (junk.drop f.length) (by simp)
        (fun q hq => hall q (List.mem_cons_of_mem _ hq)) hjoin
        (by rw [List.length_drop]; omega)
        (by rw [hlen]; exact hcap) (by rw [hlen]; exact hp3)
      obtain ⟨execs, he1, he2, he3⟩ := hih
      rw [he1]
      refine ⟨_, rfl, ?_, ?_⟩
      · simp only [List.map_cons, he2, List.length_cons, List.replicate_succ]
      · simp only [List.map_cons, he3, List.length_cons, Nat.add_sub_cancel,
          List.replicate_succ, List.cons_append]


/-! ## The uvarint encoder -/

theorem or_continuation (y : Nat) (hy : y < 256) : y ||| 128 = y % 128 + 128 := by
  revert y
  decide

theorem orByte_continuation (x : Nat) : orByte (byte x) 0x80 = byte (x % 128 + 128) := by
  unfold orByte byte
  apply Fin.ext
  show (x % 256 ||| 128) % 256 = (x % 128 + 128) % 256
  rw [or_continuation (x % 256) (Nat.mod_lt x (by decide))]
  omega

theorem set_at_length (pre : List Byte) (m a : Byte) (rest : List Byte) :
    (pre ++ m :: rest).set pre.length a = pre ++ a :: rest := by
  induction pre with
  | nil => rfl
  | cons c cs ih => simp [ih]

theorem LEB128_small (n : Nat) (h : n < 128) : LEB128 n = [byte n] := by
  rw [LEB128, dif_pos h]

theorem LEB128_large (n : Nat) (h : 128 ≤ n) :
    LEB128 n = byte (n % 128 + 128) :: LEB128 (n / 128) := by
  rw [LEB128, dif_neg (by omega)]

theorem LEB128_length_pos (n : Nat) : 1 ≤ (LEB128 n).length := by
  by_cases h : n < 128
  · rw [LEB128_small n h]; simp
  · rw [LEB128_large n (by omega)]; simp

theorem LEB128_length_le (k : Nat) : ∀ n, n < 128 ^ (k + 1) → (LEB128 n).length ≤ k + 1 := by
  induction k with
  | zero =>
    intro n hn
    rw [LEB128_small n (by simpa using hn)]
    simp
  | succ k ih =>
    intro n hn
    by_cases h : n < 128
    · rw [LEB128_small n h]; simp
    · rw [LEB128_large n (by omega), List.length_cons]
      have : n / 128 < 128 ^ (k + 1) := by
        rw [Nat.div_lt_iff_lt_mul (by decide)]
        rw [pow_succ] at hn
        exact hn
      have := ih _ this
      omega

theorem LEB128_length_uint64 (n : Nat) (hn : n < 18446744073709551616) :
    (LEB128 n).length ≤ 10 := by
  apply LEB128_length_le 9 n
  have : (18446744073709551616 : Nat) ≤ 128 ^ (9 + 1) := by norm_num
  omega

/-- `PutUvarint` writes the LEB128 bytes of `x` at index `i` when they fit. -/
theorem PutUvarintLoop_eq (x : Nat) :
    ∀ (pre mid post : List Byte), mid.length = (LEB128 x).length →
      PutUvarintLoop (pre ++ mid ++ post) pre.length x
        = some (pre ++ LEB128 x ++ post, ((pre.length + (LEB128 x).length : Nat) : Int)) := by
  induction x using Nat.strong_induction_on with
  | _ x ih =>
    intro pre mid post hmid
    by_cases h : x < 128
    · rw [LEB128_small x h] at hmid ⊢
      obtain ⟨m, rfl⟩ : ∃ m, mid = [m] := by
        match mid, hmid with
        | [m], _ => exact ⟨m, rfl⟩
      rw [PutUvarintLoop, dif_neg (by omega), if_pos (by simp)]
      rw [List.append_assoc, List.singleton_append, set_at_length]
      simp
    · have hx : 128 ≤ x := by omega
      rw [LEB128_large x hx] at hmid ⊢
      obtain ⟨m, mid1, rfl⟩ : ∃ m mid1, mid = m :: mid1 := by
        match mid, hmid with
        | m :: mid1, _ => exact ⟨m, mid1, rfl⟩
      simp only [List.length_cons, Nat.add_right_cancel_iff] at hmid
      rw [PutUvarintLoop, dif_pos hx, if_pos (by simp)]
      rw [List.append_assoc, List.cons_append, set_at_length, orByte_continuation,
        Nat.shiftRight_eq_div_pow]
      have hdiv : x / 2 ^ 7 = x / 128 := rfl
      rw [hdiv]
      have hrec := ih (x / 128) (Nat.div_lt_self (by omega) (by decide))
        (pre ++ [byte (x % 128 + 128)]) mid1 post hmid
      have e1 : pre ++ byte (x % 128 + 128) :: (mid1 ++ post)
          = pre ++ [byte (x % 128 + 128)] ++ mid1 ++ post := by simp
      have e2 : pre.length + 1 = (pre ++ [byte (x % 128 + 128)]).length := by simp
      rw [e1, e2, hrec]
      simp only [List.append_assoc, List.cons_append, List.nil_append, List.length_append,
        List.length_cons, List.length_nil]
      congr 2
      omega

theorem getUvarintLenLoop_eq (x : Nat) :
    ∀ (i : Nat), i + (LEB128 x).length ≤ 1000 →
      getUvarintLenLoop x (i : Int) = ((i + (LEB128 x).length : Nat) : Int) := by
  induction x using Nat.strong_induction_on with
  | _ x ih =>
    intro i hi
    by_cases h : x < 128
    · rw [LEB128_small x h] at hi ⊢
      rw [getUvarintLenLoop, dif_neg (by omega), wrapInt_eq _ (by omega) (by omega)]
      simp
    · have hx : 128 ≤ x := by omega
      rw [LEB128_large x hx] at hi ⊢
      simp only [List.length_cons] at hi ⊢
      rw [getUvarintLenLoop, dif_pos hx, wrapInt_eq _ (by omega) (by omega),
        Nat.shiftRight_eq_div_pow]
      have hdiv : x / 2 ^ 7 = x / 128 := rfl
      rw [hdiv]
      have hrec := ih (x / 128) (Nat.div_lt_self (by omega) (by decide)) (i + 1) (by omega)
      have e : ((i : Int) + 1) = ((i + 1 : Nat) : Int) := by simp
      rw [e, hrec]
      congr 1
      omega

theorem getUvarintLen_eq (x : Nat) (hx : x < 18446744073709551616) :
    getUvarintLen x = ((LEB128 x).length : Int) := by
  have h10 := LEB128_length_uint64 x hx
  have := getUvarintLenLoop_eq x 0 (by omega)
  unfold getUvarintLen
  rw [show (0 : Int) = ((0 : Nat) : Int) from rfl, this, Nat.zero_add]

theorem uint64_cast (n : Nat) (hn : n < 18446744073709551616) : uint64 (n : Int) = n := by
  unfold uint64
  omega


/-! ## Claims about the fixed-header codec and `Buffer.Read` -/

/-- C1. Fixed-header decoder, header length 2: on a buffer that satisfies the
window invariant and whose valid bytes are `k` complete frames (payload lengths
between 1 and `Cap - 2`) followed by `rest`, where `rest` is shorter than a
header or is a header declaring a legal length followed by fewer bytes than
declared, `Decode` returns nil, calls the handler exactly with the `k` payloads
in order, and leaves exactly `rest` as the valid window (same storage, same
`end`).  Any number of iterations above `k` suffices for the loop to return. -/
theorem headerLenDecoder_Decode_stream (b : Buffer) (ps : List (List Byte))
    (rest : List Byte) (hinv : b.Inv)
    (hps : ∀ p ∈ ps, 1 ≤ p.length ∧ p.length ≤ 65535 ∧ (p.length : Int) ≤ b.Cap - 2)
    (hw : b.GetBytes = some (frames ps ++ rest))
    (hrest : rest.length < 2 ∨ ∃ n tail, rest = BE16 n ++ tail ∧ 1 ≤ n ∧ n ≤ 65535
      ∧ (n : Int) ≤ b.Cap - 2 ∧ tail.length < n)
    (fuel : Nat) (hfuel : ps.length < fuel) :
    ∃ b1, headerLenDecoder.Decode { headerLen := 2 } fuel b
        = { status := Status.returned none, calls := ps, buffer := b1 }
      ∧ b1.GetBytes = some rest ∧ b1.buf = b.buf ∧ b1.end_ = b.end_ := by
  refine ⟨_, headerLenDecoder.Decode_frames ps b rest hinv hps hw hrest fuel hfuel, ?_, rfl, rfl⟩
  have hl := Buffer.window_length b _ hw
  have hadv := Buffer.GetBytes_advance b _ hw (frames ps).length
    (by rw [List.length_append]; omega)
  rw [List.drop_left] at hadv
  rw [← hadv]
  congr 2
  rw [List.length_append] at hl
  push_cast at hl
  omega

theorem headerLenDecoder_Decode_stream_witness :
    ∃ b1, headerLenDecoder.Decode { headerLen := 2 } 3 streamBuffer
        = { status := Status.returned none, calls := [[0x41, 0x42, 0x43], [9]], buffer := b1 }
      ∧ b1.GetBytes = some [0, 5, 1] ∧ b1.buf = streamBuffer.buf
      ∧ b1.end_ = streamBuffer.end_ :=
  headerLenDecoder_Decode_stream streamBuffer [[0x41, 0x42, 0x43], [9]] [0, 5, 1]
    (by decide) (by decide) (by decide)
    (Or.inr ⟨5, [1], by decide, by decide, by decide, by decide, by decide⟩) 3 (by decide)


/-- C3. Fixed-header encoder, header length 2: for every `writeBufferLen > 0`
and every payload of at most 65535 bytes, `EncodeToWriter` performs exactly one
`Write`, the bytes written are `[len / 256, len mod 256] ++ payload` (so
`len + 2` bytes), whatever the pooled scratch buffer held and whether the pool
or a fresh allocation is used, and the value returned is the error of that
`Write`. -/
theorem headerLenEncoder_EncodeToWriter_wire (writeBufferLen : Int)
    (pooled p : List Byte) (w : Writer)
    (_hpos : 0 < writeBufferLen) (hwl : writeBufferLen ≤ maxInt)
    (hpool : (pooled.length : Int) = writeBufferLen) (hn : p.length ≤ 65535) :
    headerLenEncoder.EncodeToWriter { headerLen := 2, writeBufferLen := writeBufferLen }
        pooled w p
      = some { writes := [[byte (p.length / 256), byte (p.length % 256)] ++ p],
               err := w ([byte (p.length / 256), byte (p.length % 256)] ++ p) }
    ∧ ([byte (p.length / 256), byte (p.length % 256)] ++ p).length = p.length + 2 := by
  refine ⟨headerLenEncoder.EncodeToWriter_eq _ rfl pooled p w hwl hpool hn, ?_⟩
  rw [List.length_append]
  simp only [List.length_cons, List.length_nil]
  omega

theorem headerLenEncoder_EncodeToWriter_wire_witness :
    headerLenEncoder.EncodeToWriter { headerLen := 2, writeBufferLen := 1024 }
        (List.replicate 1024 7) (constWriter (some (Error.other 1))) [0x41, 0x42, 0x43]
      = some { writes := [[0x00, 0x03, 0x41, 0x42, 0x43]], err := some (Error.other 1) }
    ∧ ([0x00, 0x03, 0x41, 0x42, 0x43] : List Byte).length = 3 + 2 :=
  headerLenEncoder_EncodeToWriter_wire 1024 (List.replicate 1024 7) [0x41, 0x42, 0x43]
    (constWriter (some (Error.other 1))) (by decide) (by decide) (by decide) (by decide)

/-- C2. Fixed-header round trip, header length 2: for every capacity and every
payload `p` with `1 ≤ len p ≤ min(65535, Cap - 2)`, the bytes `EncodeToWriter`
hands to the sink, appended to an empty `Buffer` of that capacity, decode to
exactly one handler call whose argument is `p`; `Decode` returns nil and the
buffer is left with `Len() = 0`. -/
theorem headerLen_round_trip (writeBufferLen : Int) (pooled buf0 p : List Byte) (w : Writer)
    (_hpos : 0 < writeBufferLen) (hwl : writeBufferLen ≤ maxInt)
    (hpool : (pooled.length : Int) = writeBufferLen)
    (hcap : (buf0.length : Int) ≤ maxInt)
    (h1 : 1 ≤ p.length) (h2 : p.length ≤ 65535) (h3 : p.length + 2 ≤ buf0.length)
    (fuel : Nat) (hfuel : 2 ≤ fuel) :
    ∃ wire b1 b2,
      headerLenEncoder.EncodeToWriter { headerLen := 2, writeBufferLen := writeBufferLen }
          pooled w p = some { writes := [wire], err := w wire }
      ∧ (NewBuffer buf0).ReadFromReader (fragReader wire) = some (((wire.length : Int), none), b1)
      ∧ headerLenDecoder.Decode { headerLen := 2 } fuel b1
          = { status := Status.returned none, calls := [p], buffer := b2 }
      ∧ b2.Len = 0 := by
  have hfl : (frame p).length = p.length + 2 := by
    unfold frame
    rw [List.length_append]
    have : (BE16 p.length).length = 2 := rfl
    omega
  have hread := Buffer.ReadFromReader_frag [] buf0 (frame p) (by omega) hcap
  obtain ⟨b1, hb1⟩ : ∃ b1 : Buffer, b1 =
      { buf := ([] ++ frame p) ++ buf0.drop (frame p).length, start := 0,
        end_ := (([] ++ frame p).length : Int) } := ⟨_, rfl⟩
  rw [← hb1] at hread
  have hlen : (([] ++ frame p) ++ buf0.drop (frame p).length).length = buf0.length := by
    simp only [List.nil_append, List.length_append, List.length_drop]
    omega
  have hcapb : b1.Cap = (buf0.length : Int) := by
    rw [hb1]
    show (((([] ++ frame p) ++ buf0.drop (frame p).length).length : Nat) : Int) = _
    rw [hlen]
  have hinv : b1.Inv := by
    refine ⟨?_, ?_, ?_, ?_⟩
    · rw [hb1]
    · rw [hb1]; exact Int.ofNat_nonneg _
    · rw [hcapb, hb1]
      show (([] ++ frame p).length : Int) ≤ (buf0.length : Int)
      rw [List.nil_append, hfl]
      omega
    · rw [hcapb]
      exact hcap
  have hget : b1.GetBytes = some (frames [p] ++ []) := by
    rw [hb1]
    have := slice_mid [] ([] ++ frame p) (buf0.drop (frame p).length)
    simp only [List.nil_append, List.length_nil, Nat.cast_zero, zero_add] at this
    simp only [frames, List.append_nil, List.nil_append]
    exact this
  have hdec := headerLenDecoder.Decode_frames [p] b1 [] hinv
    (by
      intro q hq
      rw [List.mem_singleton] at hq
      subst hq
      refine ⟨h1, h2, ?_⟩
      rw [hcapb]
      omega)
    hget (Or.inl (by simp)) fuel (by simp; omega)
  refine ⟨frame p, b1, _, headerLenEncoder.EncodeToWriter_eq _ rfl pooled p w hwl hpool h2,
    hread, hdec, ?_⟩
  unfold Buffer.Len
  have e : b1.end_ - (b1.end_ - (([] : List Byte).length : Int)) = 0 := by
    simp only [List.length_nil, Nat.cast_zero, sub_zero, sub_self]
  show wrapInt (b1.end_ - (b1.end_ - (([] : List Byte).length : Int))) = 0
  rw [e]
  exact wrapInt_eq 0 (by omega) (by omega)

theorem headerLen_round_trip_witness :
    ∃ wire b1 b2,
      headerLenEncoder.EncodeToWriter { headerLen := 2, writeBufferLen := 64 }
          (List.replicate 64 0) (constWriter none) [0x41, 0x42, 0x43]
        = some { writes := [wire], err := constWriter none wire }
      ∧ (NewBuffer (List.replicate 1024 0)).ReadFromReader (fragReader wire)
          = some (((wire.length : Int), none), b1)
      ∧ headerLenDecoder.Decode { headerLen := 2 } 2 b1
          = { status := Status.returned none, calls := [[0x41, 0x42, 0x43]], buffer := b2 }
      ∧ b2.Len = 0 :=
  headerLen_round_trip 64 (List.replicate 64 0) (List.replicate 1024 0) [0x41, 0x42, 0x43]
    (constWriter none) (by decide) (by decide) (by decide) (by decide) (by decide)
    (by decide) (by decide) 2 (by decide)

/-- C4. Fixed-header decoder, header length 2: when the first two valid bytes
decode (big-endian) to a length that is zero or exceeds `Cap - 2`, `Decode`
returns a non-nil error in its first iteration, never calls the handler and
leaves the buffer (start, end and bytes) unchanged, whatever follows the
header. -/
theorem headerLenDecoder_Decode_illegal (b : Buffer) (h0 h1 : Byte) (tail : List Byte)
    (hinv : b.Inv) (hw : b.GetBytes = some (h0 :: h1 :: tail))
    (hbad : h0.val * 256 + h1.val = 0 ∨ ((h0.val * 256 + h1.val : Nat) : Int) > b.Cap - 2)
    (fuel : Nat) :
    headerLenDecoder.Decode { headerLen := 2 } (fuel + 1) b
      = { status := Status.returned
            (some (Error.illegalHeaderLength ((h0.val * 256 + h1.val : Nat) : Int))),
          calls := [], buffer := b } := by
  have hit := headerLenDecoder.iter_header { headerLen := 2 } rfl b h0 h1 tail hinv hw
  rw [if_pos hbad] at hit
  unfold headerLenDecoder.Decode runLoop
  rw [hit]

theorem headerLenDecoder_Decode_illegal_witness :
    headerLenDecoder.Decode { headerLen := 2 } (0 + 1) header2000Buffer
      = { status := Status.returned
            (some (Error.illegalHeaderLength
              (((0x07 : Byte).val * 256 + (0xD0 : Byte).val : Nat) : Int))),
          calls := [], buffer := header2000Buffer } :=
  headerLenDecoder_Decode_illegal header2000Buffer 0x07 0xD0 [] (by decide) (by decide)
    (Or.inr (by decide)) 0


/-- C5 (as amended). Fragmentation invariance, header length 2: split the wire
bytes `BE16(len p) ++ p` of a payload with `1 ≤ len p ≤ Cap - 2` and
`len p ≤ 65535` (the length fits the two header bytes) into consecutive
non-empty fragments; starting from an empty `Buffer` of capacity `Cap`, append
each fragment with `ReadFromReader` and call `Decode` after each.  Every
`Decode` returns nil, the calls before the last fragment hand nothing to the
handler, and the call after the last fragment hands it exactly `p`, once. -/
theorem headerLen_fragmentation_invariance (buf0 p : List Byte) (frags : List (List Byte))
    (hcap : (buf0.length : Int) ≤ maxInt)
    (h1 : 1 ≤ p.length) (h2 : p.length ≤ 65535) (h3 : p.length + 2 ≤ buf0.length)
    (hne : ∀ f ∈ frags, f ≠ []) (hsplit : frags.flatten = frame p)
    (fuel : Nat) (hfuel : 2 ≤ fuel) :
    ∃ execs, feedDecode fuel (NewBuffer buf0) frags = some execs
      ∧ execs.map (fun r => r.status) = List.replicate frags.length (Status.returned none)
      ∧ execs.map (fun r => r.calls) = List.replicate (frags.length - 1) [] ++ [[p]] := by
  have hfl : (frame p).length = p.length + 2 := by
    unfold frame
    rw [List.length_append]
    have : (BE16 p.length).length = 2 := rfl
    omega
  have hnil : frags ≠ [] := by
    intro h
    rw [h] at hsplit
    have := congrArg List.length hsplit
    rw [hfl] at this
    simp at this
  exact feedDecode_frame p h1 h2 fuel hfuel frags [] buf0 hnil hne hsplit
    (by rw [hsplit, hfl]; exact h3) hcap h3

theorem headerLen_fragmentation_invariance_witness :
    ∃ execs, feedDecode 2 (NewBuffer (List.replicate 16 0))
        [[0x00], [0x03, 0x41], [0x42, 0x43]] = some execs
      ∧ execs.map (fun r => r.status)
          = List.replicate ([[0x00], [0x03, 0x41], [0x42, 0x43]] : List (List Byte)).length
              (Status.returned none)
      ∧ execs.map (fun r => r.calls)
          = List.replicate (([[0x00], [0x03, 0x41], [0x42, 0x43]] : List (List Byte)).length - 1) []
              ++ [[[0x41, 0x42, 0x43]]] :=
  headerLen_fragmentation_invariance (List.replicate 16 0) [0x41, 0x42, 0x43]
    [[0x00], [0x03, 0x41], [0x42, 0x43]] (by decide) (by decide) (by decide) (by decide)
    (by decide) (by decide) 2 (by decide)

/-- A frame whose payload is 65536 bytes long carries the header `00 00`: fed
to the decoder in one fragment, it is rejected with `illegalHeaderLength 0` and
the handler is not called. -/
theorem feedDecode_long_payload (buf0 p : List Byte) (hp : p.length = 65536)
    (hroom : p.length + 2 ≤ buf0.length) (hcap : (buf0.length : Int) ≤ maxInt) (fuel : Nat) :
    ∃ b1, feedDecode (fuel + 1) (NewBuffer buf0) [frame p]
      = some [{ status := Status.returned (some (Error.illegalHeaderLength 0)),
                calls := [], buffer := b1 }] := by
  have hfl : (frame p).length = p.length + 2 := by
    unfold frame
    rw [List.length_append]
    have : (BE16 p.length).length = 2 := rfl
    omega
  have hread := Buffer.ReadFromReader_frag [] buf0 (frame p) (by omega) hcap
  obtain ⟨b1, hb1⟩ : ∃ b1 : Buffer, b1 =
      { buf := ([] ++ frame p) ++ buf0.drop (frame p).length, start := 0,
        end_ := (([] ++ frame p).length : Int) } := ⟨_, rfl⟩
  rw [← hb1] at hread
  have hlen : (([] ++ frame p) ++ buf0.drop (frame p).length).length = buf0.length := by
    simp only [List.nil_append, List.length_append, List.length_drop]
    omega
  have hcapb : b1.Cap = (buf0.length : Int) := by
    rw [hb1]
    show (((([] ++ frame p) ++ buf0.drop (frame p).length).length : Nat) : Int) = _
    rw [hlen]
  have hinv : b1.Inv := by
    refine ⟨?_, ?_, ?_, ?_⟩
    · rw [hb1]
    · rw [hb1]; exact Int.ofNat_nonneg _
    · rw [hcapb, hb1]
      show (([] ++ frame p).length : Int) ≤ (buf0.length : Int)
      rw [List.nil_append, hfl]
      omega
    · rw [hcapb]
      exact hcap
  have hget : b1.GetBytes = some (0 :: 0 :: p) := by
    rw [hb1]
    have := slice_mid [] ([] ++ frame p) (buf0.drop (frame p).length)
    simp only [List.nil_append, List.length_nil, Nat.cast_zero, zero_add] at this
    have hfr : frame p = 0 :: 0 :: p := by
      unfold frame BE16
      rw [hp]
      rfl
    rw [hfr] at this
    rw [hfr]
    exact this
  have hit := headerLenDecoder.iter_header { headerLen := 2 } rfl b1 0 0 p hinv hget
  rw [if_pos (Or.inl (by decide))] at hit
  have hdec : headerLenDecoder.Decode { headerLen := 2 } (fuel + 1) b1
      = { status := Status.returned (some (Error.illegalHeaderLength 0)),
          calls := [], buffer := b1 } := by
    unfold headerLenDecoder.Decode runLoop
    rw [hit]
    rfl
  refine ⟨b1, ?_⟩
  have hc := feedDecode_cons (fuel + 1) (NewBuffer buf0) b1 (frame p) [] _ hread
  rw [hc, hdec]
  rfl

/-- C5, counterexample to the claim as stated: a payload of 65536 bytes and an
empty `Buffer` of capacity 65540 satisfy `1 ≤ len p ≤ Cap - 2`, and the wire
bytes `BE16(len p) ++ p` are fed as one non-empty fragment.  The two header
bytes can only hold `len p` modulo `2^16`, which is 0: the `Decode` after the
fragment returns the error `illegalHeaderLength 0` instead of nil, and the
handler is never invoked. -/
theorem headerLen_fragmentation_long_payload_counterexample :
    1 ≤ (List.replicate 65536 (0x41 : Byte)).length
      ∧ ((List.replicate 65536 (0x41 : Byte)).length : Int)
          ≤ (NewBuffer (List.replicate 65540 0)).Cap - 2
      ∧ (∀ f ∈ [frame (List.replicate 65536 (0x41 : Byte))], f ≠ [])
      ∧ [frame (List.replicate 65536 (0x41 : Byte))].flatten
          = frame (List.replicate 65536 (0x41 : Byte))
      ∧ ∃ b1, feedDecode 2 (NewBuffer (List.replicate 65540 0))
            [frame (List.replicate 65536 (0x41 : Byte))]
          = some [{ status := Status.returned (some (Error.illegalHeaderLength 0)),
                    calls := [], buffer := b1 }] := by
  refine ⟨?_, ?_, ?_, ?_, ?_⟩
  · rw [List.length_replicate]
    decide
  · unfold Buffer.Cap NewBuffer
    rw [List.length_replicate]
    show ((65536 : Nat) : Int) ≤ ((List.replicate 65540 (0 : Byte)).length : Int) - 2
    rw [List.length_replicate]
    decide
  · intro f hf
    rw [List.mem_singleton] at hf
    rw [hf]
    unfold frame BE16
    exact List.cons_ne_nil _ _
  · exact List.flatten_singleton _
  · exact feedDecode_long_payload (List.replicate 65540 0) (List.replicate 65536 0x41)
      (List.length_replicate _ _)
      (by rw [List.length_replicate, List.length_replicate]; decide)
      (by rw [List.length_replicate]; decide) 1

/-- C10 (as amended). `Buffer.Read(skip, take)` on a buffer satisfying the window
invariant, with `skip ≥ 0`, `take ≥ 0` and `skip + take` representable as an
`int` (at most `2^63 - 1`): `Read` fails with `ErrNotEnough` exactly when
`Len() < skip + take`, and then leaves the buffer unchanged; otherwise it
returns the `take` bytes at offsets `[start+skip, start+skip+take)` of the
backing storage, advances `start` by `skip + take`, and leaves `end` and the
bytes unchanged. -/
theorem Buffer_Read_contract (b : Buffer) (skip take : Int) (hinv : b.Inv)
    (hs : 0 ≤ skip) (ht : 0 ≤ take) (hsum : skip + take ≤ maxInt) :
    ((b.Read skip take).map (fun r => r.1.2) = some (some Error.ErrNotEnough)
        ↔ b.Len < skip + take)
    ∧ (b.Len < skip + take → b.Read skip take = some (([], some Error.ErrNotEnough), b))
    ∧ (¬ b.Len < skip + take →
        b.Read skip take
          = some (((b.buf.drop (b.start + skip).toNat).take take.toNat, none),
                  { b with start := b.start + skip + take })
        ∧ (((b.buf.drop (b.start + skip).toNat).take take.toNat).length : Int) = take) := by
  have hlen := Buffer.Len_eq b hinv
  have hshort := Buffer.Read_short b skip take hs ht hsum
  have henough := Buffer.Read_enough b skip take hinv hs ht
  refine ⟨?_, hshort, ?_⟩
  · constructor
    · intro h
      by_contra hge
      rw [henough (by omega)] at h
      simp at h
    · intro h
      rw [hshort h]
      rfl
  · intro hge
    refine ⟨henough (by omega), ?_⟩
    obtain ⟨h0, h1, h2, h3⟩ := hinv
    unfold Buffer.Cap at h2
    rw [hlen] at hge
    rw [List.length_take, List.length_drop]
    omega

theorem Buffer_Read_contract_witness :
    ((windowBuffer.Read 1 2).map (fun r => r.1.2) = some (some Error.ErrNotEnough)
        ↔ windowBuffer.Len < 1 + 2)
    ∧ (windowBuffer.Len < 1 + 2 →
        windowBuffer.Read 1 2 = some (([], some Error.ErrNotEnough), windowBuffer))
    ∧ (¬ windowBuffer.Len < 1 + 2 →
        windowBuffer.Read 1 2
          = some (((windowBuffer.buf.drop (windowBuffer.start + 1).toNat).take (2 : Int).toNat,
                    none),
                  { windowBuffer with start := windowBuffer.start + 1 + 2 })
        ∧ (((windowBuffer.buf.drop (windowBuffer.start + 1).toNat).take
              (2 : Int).toNat).length : Int) = 2) :=
  Buffer_Read_contract windowBuffer 1 2 (by decide) (by decide) (by decide) (by decide)

/-- C10, counterexample to the claim as stated: with `skip = 1` and
`take = 2^63 - 1`, both non-negative, the window of `windowBuffer` (5 bytes) is
shorter than `skip + take`, yet `Read` does not fail with `ErrNotEnough`: the
`int` sum `offset+limit` wraps to `-2^63`, the length check passes, and the
slice expression panics. -/
theorem Buffer_Read_overflow_counterexample :
    windowBuffer.Inv ∧ (0 : Int) ≤ 1 ∧ (0 : Int) ≤ 9223372036854775807
      ∧ windowBuffer.Len < 1 + 9223372036854775807
      ∧ windowBuffer.Read 1 9223372036854775807 = none := by
  decide


/-- Either branch of `uvarintEncoder.scratch` yields a slice of length `l`. -/
theorem uvarintEncoder.uvarint_scratch_eq (e : uvarintEncoder) (pooled : List Byte) (l : Nat)
    (hpool : (pooled.length : Int) = e.writeBufferLen) :
    ∃ buffer, e.scratch pooled (l : Int) = some buffer ∧ buffer.length = l := by
  unfold uvarintEncoder.scratch
  by_cases hb : (l : Int) > e.writeBufferLen
  · rw [if_pos hb, if_pos (by omega)]
    refine ⟨_, rfl, ?_⟩
    rw [List.length_replicate]
    omega
  · rw [if_neg hb]
    have hle : l ≤ pooled.length := by omega
    have := slice_mid [] (pooled.take l) (pooled.drop l)
    rw [List.nil_append, List.take_append_drop, List.length_take, Nat.min_eq_left hle] at this
    simp only [List.length_nil, Nat.cast_zero, zero_add] at this
    exact ⟨_, this, by rw [List.length_take]; omega⟩

theorem uvarintEncoder.uvarint_fill_eq (buffer bytes : List Byte) (x : Nat)
    (hlen : buffer.length = (LEB128 x).length + bytes.length) :
    uvarintEncoder.fill buffer x ((LEB128 x).length : Int) bytes = some (LEB128 x ++ bytes) := by
  have hsplit : buffer = [] ++ buffer.take (LEB128 x).length ++ buffer.drop (LEB128 x).length := by
    rw [List.nil_append, List.take_append_drop]
  have htl : (buffer.take (LEB128 x).length).length = (LEB128 x).length := by
    rw [List.length_take]; omega
  have hdl : (buffer.drop (LEB128 x).length).length = bytes.length := by
    rw [List.length_drop]; omega
  have hput : PutUvarint buffer x
      = some (LEB128 x ++ buffer.drop (LEB128 x).length, (((LEB128 x).length : Nat) : Int)) := by
    unfold PutUvarint
    have := PutUvarintLoop_eq x [] (buffer.take (LEB128 x).length)
      (buffer.drop (LEB128 x).length) htl
    rw [← hsplit] at this
    simp only [List.length_nil, List.nil_append, Nat.zero_add] at this
    exact this
  have hs : slice (LEB128 x ++ buffer.drop (LEB128 x).length) ((LEB128 x).length : Int)
      (((LEB128 x ++ buffer.drop (LEB128 x).length).length : Nat) : Int)
      = some (buffer.drop (LEB128 x).length) := by
    have := slice_mid (LEB128 x) (buffer.drop (LEB128 x).length) []
    rw [List.append_nil] at this
    rw [← this, List.length_append, Nat.cast_add]
  have hcp : copy (buffer.drop (LEB128 x).length) bytes = bytes := by
    unfold copy
    rw [hdl, List.take_length, List.drop_eq_nil_of_le (by omega), List.append_nil]
  unfold uvarintEncoder.fill
  rw [hput]
  dsimp only
  rw [hs]
  dsimp only
  rw [hcp, Int.toNat_ofNat, List.take_left]

theorem uvarintEncoder.uvarint_EncodeToWriter_eq (e : uvarintEncoder) (pooled bytes : List Byte)
    (w : Writer) (hpool : (pooled.length : Int) = e.writeBufferLen)
    (hp : (bytes.length : Int) + 10 ≤ maxInt) :
    uvarintEncoder.EncodeToWriter e pooled w bytes
      = some { writes := [LEB128 bytes.length ++ bytes],
               err := w (LEB128 bytes.length ++ bytes) } := by
  unfold maxInt at hp
  have hlt : bytes.length < 18446744073709551616 := by omega
  have h10 := LEB128_length_uint64 bytes.length hlt
  have hcast : (((LEB128 bytes.length).length : Nat) : Int) + (bytes.length : Int)
      = (((LEB128 bytes.length).length + bytes.length : Nat) : Int) := by
    rw [Nat.cast_add]
  obtain ⟨buffer, hsc, hbl⟩ := uvarintEncoder.uvarint_scratch_eq e pooled
    ((LEB128 bytes.length).length + bytes.length) hpool
  have hfill := uvarintEncoder.uvarint_fill_eq buffer bytes bytes.length hbl
  unfold uvarintEncoder.EncodeToWriter
  rw [uint64_cast bytes.length hlt, getUvarintLen_eq bytes.length hlt,
    wrapInt_eq _ (by omega) (by omega), hcast, hsc]
  dsimp only
  rw [hfill]

/-! ## Claims about the uvarint codec -/

/-- C8. Varint encoder wire format: for every `writeBufferLen > 0` and every
payload `p`, `EncodeToWriter` performs exactly one `Write` and the bytes written
are `LEB128(len p) ++ p`, whatever the pooled scratch buffer held;
`getUvarintLen(len p)` is the number of bytes of `LEB128(len p)` and lies
between 1 and 10.  (A payload is a Go slice, so its length plus ten fits an
`int`.) -/
theorem uvarintEncoder_EncodeToWriter_wire (writeBufferLen : Int) (pooled p : List Byte)
    (w : Writer) (_hpos : 0 < writeBufferLen)
    (hpool : (pooled.length : Int) = writeBufferLen)
    (hp : (p.length : Int) + 10 ≤ maxInt) :
    uvarintEncoder.EncodeToWriter { writeBufferLen := writeBufferLen } pooled w p
      = some { writes := [LEB128 p.length ++ p], err := w (LEB128 p.length ++ p) }
    ∧ getUvarintLen (uint64 (p.length : Int)) = ((LEB128 p.length).length : Int)
    ∧ 1 ≤ (LEB128 p.length).length ∧ (LEB128 p.length).length ≤ 10 := by
  have hlt : p.length < 18446744073709551616 := by
    unfold maxInt at hp
    omega
  refine ⟨uvarintEncoder.uvarint_EncodeToWriter_eq _ pooled p w hpool hp, ?_,
    LEB128_length_pos _, LEB128_length_uint64 _ hlt⟩
  rw [uint64_cast p.length hlt, getUvarintLen_eq p.length hlt]

theorem uvarintEncoder_EncodeToWriter_wire_witness :
    uvarintEncoder.EncodeToWriter { writeBufferLen := 4 } [7, 7, 7, 7] (constWriter none)
        [0x41, 0x42, 0x43]
      = some { writes := [LEB128 ([0x41, 0x42, 0x43] : List Byte).length ++ [0x41, 0x42, 0x43]],
               err := constWriter none
                 (LEB128 ([0x41, 0x42, 0x43] : List Byte).length ++ [0x41, 0x42, 0x43]) }
    ∧ getUvarintLen (uint64 (([0x41, 0x42, 0x43] : List Byte).length : Int))
        = ((LEB128 ([0x41, 0x42, 0x43] : List Byte).length).length : Int)
    ∧ 1 ≤ (LEB128 ([0x41, 0x42, 0x43] : List Byte).length).length
    ∧ (LEB128 ([0x41, 0x42, 0x43] : List Byte).length).length ≤ 10 :=
  uvarintEncoder_EncodeToWriter_wire 4 [7, 7, 7, 7] [0x41, 0x42, 0x43] (constWriter none)
    (by decide) (by decide) (by decide)

/-- C6, the code at two inputs of the claim: on an empty window, and on a window
of two continuation bytes, `binary.Uvarint` reports `(0, 0)`, `Read(0, 0)`
succeeds, and every iteration hands the handler an empty payload and loops
again with the buffer unchanged: after any number `n` of iterations `Decode`
has not returned and the handler has been called `n` times. -/
theorem uvarintDecoder_Decode_incomplete_header_spins (n : Nat) :
    uvarintDecoder.Decode n (NewBuffer [0, 0, 0, 0])
      = { status := Status.running, calls := List.replicate n [],
          buffer := NewBuffer [0, 0, 0, 0] }
    ∧ uvarintDecoder.Decode n { buf := [0x80, 0x80, 0, 0], start := 0, end_ := 2 }
      = { status := Status.running, calls := List.replicate n [],
          buffer := { buf := [0x80, 0x80, 0, 0], start := 0, end_ := 2 } } := by
  have h1 : uvarintDecoder.iter (NewBuffer [0, 0, 0, 0])
      = Step.next [] (NewBuffer [0, 0, 0, 0]) := by decide
  have h2 : uvarintDecoder.iter { buf := [0x80, 0x80, 0, 0], start := 0, end_ := 2 }
      = Step.next [] { buf := [0x80, 0x80, 0, 0], start := 0, end_ := 2 } := by decide
  unfold uvarintDecoder.Decode
  induction n with
  | zero => exact ⟨rfl, rfl⟩
  | succ k ih =>
    rw [runLoop, runLoop, h1, h2]
    dsimp only
    rw [ih.1, ih.2]
    exact ⟨rfl, rfl⟩

/-- C7, the code at a failing input: the wire bytes `01 41` of the payload `A`
in an 8-byte buffer.  The first iteration hands `A` to the handler and empties
the window; every later iteration hands the handler an empty payload, so after
any number `n + 1` of iterations `Decode` has not returned and the handler has
been called `n + 1` times. -/
theorem uvarintDecoder_Decode_round_trip_spins (n : Nat) :
    uvarintEncoder.EncodeToWriter { writeBufferLen := 8 } (List.replicate 8 0)
        (constWriter none) [0x41]
      = some { writes := [[0x01, 0x41]], err := none }
    ∧ (NewBuffer (List.replicate 8 0)).ReadFromReader (fragReader [0x01, 0x41])
      = some ((2, none), varintFrameBuffer)
    ∧ uvarintDecoder.Decode (n + 1) varintFrameBuffer
      = { status := Status.running, calls := [0x41] :: List.replicate n [],
          buffer := { varintFrameBuffer with start := 2 } } := by
  have h1 : uvarintDecoder.iter varintFrameBuffer
      = Step.next [0x41] { varintFrameBuffer with start := 2 } := by decide
  have h2 : uvarintDecoder.iter { varintFrameBuffer with start := 2 }
      = Step.next [] { varintFrameBuffer with start := 2 } := by decide
  have hspin : ∀ k, runLoop uvarintDecoder.iter k { varintFrameBuffer with start := 2 }
      = { status := Status.running, calls := List.replicate k [],
          buffer := { varintFrameBuffer with start := 2 } } := by
    intro k
    induction k with
    | zero => rfl
    | succ k ih =>
      rw [runLoop, h2]
      dsimp only
      rw [ih]
      rfl
  have henc := uvarintEncoder.uvarint_EncodeToWriter_eq { writeBufferLen := 8 } (List.replicate 8 0)
    [0x41] (constWriter none) (by decide) (by decide)
  have hl : LEB128 ([0x41] : List Byte).length = [0x01] := LEB128_small 1 (by decide)
  rw [hl] at henc
  refine ⟨henc, by decide, ?_⟩
  unfold uvarintDecoder.Decode
  rw [runLoop, h1]
  dsimp only
  rw [hspin n]

/-- C9, the code at a failing input: a 16-byte buffer whose window is the
complete 10-byte varint of `N = 2^64 - 1`, so that `w + N > Cap`.  `int(N)` is
`-1`, the check `int(bodyLen)+headerLen > Cap` compares `9` with `16` and
passes, `Read(10, -1)` passes its length check and its slice expression
`buf[10:9]` panics: `Decode` returns no error. -/
theorem uvarintDecoder_Decode_oversize_panics (n : Nat) :
    hugeVarintBuffer.Inv
    ∧ hugeVarintBuffer.GetBytes
        = some [0xff, 0xff, 0xff, 0xff, 0xff, 0xff, 0xff, 0xff, 0xff, 0x01]
    ∧ Uvarint [0xff, 0xff, 0xff, 0xff, 0xff, 0xff, 0xff, 0xff, 0xff, 0x01]
        = (18446744073709551615, 10)
    ∧ (10 : Int) + 18446744073709551615 > hugeVarintBuffer.Cap
    ∧ uvarintDecoder.Decode (n + 1) hugeVarintBuffer
        = { status := Status.panicked, calls := [], buffer := hugeVarintBuffer } := by
  have h : uvarintDecoder.iter hugeVarintBuffer = Step.panic := by decide
  refine ⟨by decide, by decide, by decide, by decide, ?_⟩
  unfold uvarintDecoder.Decode
  rw [runLoop, h]

/-! ## Compaction and the window invariant -/

theorem Buffer.reset_moved (b : Buffer) (w : List Byte) (hinv : b.Inv)
    (hw : b.GetBytes = some w) (hne : b.start ≠ 0) :
    b.reset = some { buf := w ++ b.buf.drop w.length, start := 0, end_ := b.end_ - b.start } := by
  have hl := slice_length b.buf w b.start b.end_ hw
  obtain ⟨h0, h1, h2, h3⟩ := hinv
  unfold Buffer.Cap at h2 h3
  unfold maxInt at h3
  have hs : slice b.buf b.start b.end_ = some w := hw
  have hc : copy b.buf w = w ++ b.buf.drop w.length := by
    unfold copy
    rw [List.take_of_length_le (by omega)]
  unfold Buffer.reset
  rw [if_neg hne, hs]
  dsimp only
  rw [wrapInt_eq (b.end_ - b.start) (by omega) (by omega), hc]

theorem Buffer.reset_spec (b : Buffer) (hinv : b.Inv) :
    ∃ b1 w, b.reset = some b1 ∧ b.GetBytes = some w ∧ b1.GetBytes = some w
      ∧ b1.start = 0 ∧ b1.end_ = b.end_ - b.start ∧ b1.buf.length = b.buf.length
      ∧ b1.Inv ∧ (b.start = 0 → b1 = b) := by
  obtain ⟨w, hw⟩ := Buffer.GetBytes_total b hinv
  have hl := slice_length b.buf w b.start b.end_ hw
  by_cases h0 : b.start = 0
  · refine ⟨b, w, ?_, hw, hw, h0, by omega, rfl, hinv, fun _ => rfl⟩
    unfold Buffer.reset
    rw [if_pos h0]
  · have hr := Buffer.reset_moved b w hinv hw h0
    obtain ⟨i0, i1, i2, i3⟩ := hinv
    unfold Buffer.Cap at i2 i3
    have hlen : (w ++ b.buf.drop w.length).length = b.buf.length := by
      rw [List.length_append, List.length_drop]
      omega
    refine ⟨_, w, hr, hw, ?_, rfl, rfl, hlen, ?_, fun h => absurd h h0⟩
    · have := slice_mid [] w (b.buf.drop w.length)
      simp only [List.nil_append, List.length_nil, Nat.cast_zero, zero_add] at this
      show slice (w ++ b.buf.drop w.length) 0 (b.end_ - b.start) = some w
      rw [← hl.2.1]
      exact this
    · refine ⟨le_refl _, ?_, ?_, ?_⟩
      · show (0 : Int) ≤ b.end_ - b.start
        omega
      · show b.end_ - b.start ≤ (((w ++ b.buf.drop w.length).length : Nat) : Int)
        rw [hlen]
        omega
      · show ((((w ++ b.buf.drop w.length).length : Nat) : Int)) ≤ maxInt
        rw [hlen]
        exact i3

/-- C11. Compaction preserves data: on a buffer satisfying the window
invariant, `reset` returns; afterwards `start` is 0, `end` is the old
`end - start`, `Len()` and the capacity are unchanged and `GetBytes()` yields
the same bytes as before (overlapping ranges included); when `start` was 0
the whole buffer, backing bytes included, is unchanged. -/
theorem Buffer_reset_preserves_data (b : Buffer) (hinv : b.Inv) :
    ∃ b1 w, b.reset = some b1 ∧ b1.start = 0 ∧ b1.end_ = b.end_ - b.start
      ∧ b1.Len = b.Len ∧ b.GetBytes = some w ∧ b1.GetBytes = some w
      ∧ b1.Cap = b.Cap ∧ (b.start = 0 → b1 = b) := by
  obtain ⟨b1, w, hr, hw, hw1, hs, he, hlen, hinv1, hsame⟩ := Buffer.reset_spec b hinv
  refine ⟨b1, w, hr, hs, he, ?_, hw, hw1, ?_, hsame⟩
  · rw [Buffer.Len_eq b1 hinv1, Buffer.Len_eq b hinv, hs, he]
    omega
  · unfold Buffer.Cap
    rw [hlen]

theorem Buffer_reset_preserves_data_witness :
    ∃ b1 w, windowBuffer.reset = some b1 ∧ b1.start = 0
      ∧ b1.end_ = windowBuffer.end_ - windowBuffer.start
      ∧ b1.Len = windowBuffer.Len ∧ windowBuffer.GetBytes = some w ∧ b1.GetBytes = some w
      ∧ b1.Cap = windowBuffer.Cap ∧ (windowBuffer.start = 0 → b1 = windowBuffer) :=
  Buffer_reset_preserves_data windowBuffer (by decide)

theorem copy_length (dst src : List Byte) : (copy dst src).length = dst.length := by
  unfold copy
  rw [List.length_append, List.length_take, List.length_drop]
  omega

/-- Every normal return of `Read`, successful or not, leaves the invariant in
place. -/
theorem Buffer.Read_inv (b : Buffer) (skip take : Int) (hinv : b.Inv)
    (r : List Byte × Option Error) (b1 : Buffer) (h : b.Read skip take = some (r, b1)) :
    b1.Inv := by
  have hlen := Buffer.Len_eq b hinv
  obtain ⟨i0, i1, i2, i3⟩ := hinv
  unfold Buffer.Read at h
  by_cases hc : b.Len < wrapInt (skip + take)
  · rw [if_pos hc] at h
    injection h with h
    injection h with _ h
    rw [← h]
    exact ⟨i0, i1, i2, i3⟩
  · rw [if_neg hc] at h
    dsimp only at h
    cases hsl : slice b.buf (wrapInt (b.start + skip))
        (wrapInt (wrapInt (b.start + skip) + take)) with
    | none => rw [hsl] at h; cases h
    | some w =>
      rw [hsl] at h
      dsimp only at h
      injection h with h
      injection h with _ h
      have hl := slice_length _ _ _ _ hsl
      rw [hlen] at hc
      unfold Buffer.Cap at i2 i3
      unfold maxInt at i3
      rw [← h]
      refine ⟨?_, ?_, i2, i3⟩
      · show 0 ≤ wrapInt (wrapInt (b.start + skip) + take)
        omega
      · show wrapInt (wrapInt (b.start + skip) + take) ≤ b.end_
        unfold wrapInt at hl hc ⊢
        omega

theorem Buffer.Read_total (b : Buffer) (skip take : Int) (hinv : b.Inv)
    (hs : 0 ≤ skip) (ht : 0 ≤ take) (hsum : skip + take ≤ maxInt) :
    ∃ r b1, b.Read skip take = some (r, b1) := by
  by_cases hc : b.Len < skip + take
  · exact ⟨_, _, Buffer.Read_short b skip take hs ht hsum hc⟩
  · exact ⟨_, _, Buffer.Read_enough b skip take hinv hs ht (by omega)⟩

theorem Buffer.ReadAll_inv (b : Buffer) (hinv : b.Inv) (r : List Byte) (b1 : Buffer)
    (h : b.ReadAll = some (r, b1)) : b1.Inv := by
  unfold Buffer.ReadAll at h
  cases hr : b.Read b.start b.end_ with
  | none => rw [hr] at h; cases h
  | some x =>
    obtain ⟨⟨buf, e⟩, b2⟩ := x
    rw [hr] at h
    dsimp only at h
    injection h with h
    injection h with _ h
    rw [← h]
    exact Buffer.Read_inv b b.start b.end_ hinv _ _ hr

theorem Buffer.ReadAll_total (b : Buffer) (hinv : b.Inv) (hsum : b.start + b.end_ ≤ maxInt) :
    ∃ r b1, b.ReadAll = some (r, b1) := by
  obtain ⟨⟨buf, e⟩, b2, hr⟩ := Buffer.Read_total b b.start b.end_ hinv hinv.1
    (le_trans hinv.1 hinv.2.1) hsum
  refine ⟨buf, b2, ?_⟩
  unfold Buffer.ReadAll
  rw [hr]

/-- The free tail handed to the reader after compaction. -/
theorem Buffer.tail_slice (b : Buffer) (hinv : b.Inv) :
    ∃ tail, slice b.buf b.end_ (b.buf.length : Int) = some tail
      ∧ (tail.length : Int) = b.Cap - b.end_
      ∧ (b.buf.take b.end_.toNat).length = b.end_.toNat := by
  obtain ⟨i0, i1, i2, i3⟩ := hinv
  unfold Buffer.Cap at i2 i3 ⊢
  have hc : 0 ≤ b.end_ ∧ b.end_ ≤ (b.buf.length : Int) ∧ (b.buf.length : Int) ≤ (b.buf.length : Int) :=
    ⟨by omega, i2, le_refl _⟩
  refine ⟨(b.buf.drop b.end_.toNat).take ((b.buf.length : Int) - b.end_).toNat, ?_, ?_, ?_⟩
  · unfold slice
    rw [if_pos hc]
  · rw [List.length_take, List.length_drop]
    omega
  · rw [List.length_take]
    omega

theorem Buffer.ReadFromReader_inv (b : Buffer) (reader : Buffer.Reader) (hinv : b.Inv)
    (hn : ∀ tail, 0 ≤ (reader tail).n ∧ (reader tail).n ≤ (tail.length : Int)) :
    ∃ r b1, b.ReadFromReader reader = some (r, b1) ∧ b1.Inv := by
  obtain ⟨b0, w, hr, _, _, hs0, _, hlen0, hinv0, _⟩ := Buffer.reset_spec b hinv
  obtain ⟨tail, hts, htl, htk⟩ := Buffer.tail_slice b0 hinv0
  obtain ⟨hn0, hn1⟩ := hn tail
  obtain ⟨i0, i1, i2, i3⟩ := hinv0
  unfold Buffer.Cap at i2 i3 htl
  unfold maxInt at i3
  have hbl : (b0.buf.take b0.end_.toNat ++ copy tail (reader tail).data).length
      = b0.buf.length := by
    rw [List.length_append, htk, copy_length]
    omega
  unfold Buffer.ReadFromReader
  rw [hr]
  dsimp only
  rw [hts]
  dsimp only
  by_cases he : (reader tail).err ≠ none
  · rw [if_pos he]
    refine ⟨_, _, rfl, i0, i1, ?_, ?_⟩
    · show b0.end_ ≤ (((b0.buf.take b0.end_.toNat ++ copy tail (reader tail).data).length : Nat) : Int)
      rw [hbl]
      exact i2
    · show ((((b0.buf.take b0.end_.toNat ++ copy tail (reader tail).data).length : Nat) : Int))
        ≤ maxInt
      rw [hbl]
      exact i3
  · rw [if_neg he, wrapInt_eq (b0.end_ + (reader tail).n) (by omega) (by omega)]
    refine ⟨_, _, rfl, i0, ?_, ?_, ?_⟩
    · show b0.start ≤ b0.end_ + (reader tail).n
      omega
    · show b0.end_ + (reader tail).n
        ≤ (((b0.buf.take b0.end_.toNat ++ copy tail (reader tail).data).length : Nat) : Int)
      rw [hbl]
      omega
    · show ((((b0.buf.take b0.end_.toNat ++ copy tail (reader tail).data).length : Nat) : Int))
        ≤ maxInt
      rw [hbl]
      exact i3

theorem Buffer.ReadFromFD_inv (b : Buffer) (read : Buffer.Reader) (hinv : b.Inv)
    (hn : ∀ tail, 0 ≤ (read tail).n ∧ (read tail).n ≤ (tail.length : Int)) :
    ∃ r b1, b.ReadFromFD read = some (r, b1) ∧ b1.Inv := by
  obtain ⟨b0, w, hr, _, _, hs0, _, hlen0, hinv0, _⟩ := Buffer.reset_spec b hinv
  obtain ⟨tail, hts, htl, htk⟩ := Buffer.tail_slice b0 hinv0
  obtain ⟨hn0, hn1⟩ := hn tail
  obtain ⟨i0, i1, i2, i3⟩ := hinv0
  unfold Buffer.Cap at i2 i3 htl
  unfold maxInt at i3
  have hbl : (b0.buf.take b0.end_.toNat ++ copy tail (read tail).data).length
      = b0.buf.length := by
    rw [List.length_append, htk, copy_length]
    omega
  have hkeep : Buffer.Inv
      { b0 with buf := b0.buf.take b0.end_.toNat ++ copy tail (read tail).data } := by
    refine ⟨i0, i1, ?_, ?_⟩
    · show b0.end_ ≤ (((b0.buf.take b0.end_.toNat ++ copy tail (read tail).data).length : Nat) : Int)
      rw [hbl]
      exact i2
    · show ((((b0.buf.take b0.end_.toNat ++ copy tail (read tail).data).length : Nat) : Int))
        ≤ maxInt
      rw [hbl]
      exact i3
  unfold Buffer.ReadFromFD
  rw [hr]
  dsimp only
  rw [hts]
  dsimp only
  by_cases he : (read tail).err ≠ none
  · rw [if_pos he]
    exact ⟨_, _, rfl, hkeep⟩
  · rw [if_neg he]
    by_cases hz : (read tail).n = 0
    · rw [if_pos hz]
      exact ⟨_, _, rfl, hkeep⟩
    · rw [if_neg hz, wrapInt_eq (b0.end_ + (read tail).n) (by omega) (by omega)]
      refine ⟨_, _, rfl, i0, ?_, ?_, ?_⟩
      · show b0.start ≤ b0.end_ + (read tail).n
        omega
      · show b0.end_ + (read tail).n
          ≤ (((b0.buf.take b0.end_.toNat ++ copy tail (read tail).data).length : Nat) : Int)
        rw [hbl]
        omega
      · show ((((b0.buf.take b0.end_.toNat ++ copy tail (read tail).data).length : Nat) : Int))
          ≤ maxInt
        rw [hbl]
        exact i3

/-- When `Read` returns, the buffer it returns is the receiver as the call
leaves it. -/
theorem Buffer.afterRead_of_Read (b : Buffer) (skip take : Int)
    (r : List Byte × Option Error) (b1 : Buffer) (h : b.Read skip take = some (r, b1)) :
    b.afterRead skip take = b1 := by
  unfold Buffer.Read at h
  unfold Buffer.afterRead
  by_cases hc : b.Len < wrapInt (skip + take)
  · rw [if_pos hc] at h ⊢
    injection h with h
    injection h with _ h
  · rw [if_neg hc] at h ⊢
    dsimp only at h
    cases hs : slice b.buf (wrapInt (b.start + skip))
        (wrapInt (wrapInt (b.start + skip) + take)) with
    | none => rw [hs] at h; cases h
    | some buf =>
      rw [hs] at h
      dsimp only at h ⊢
      injection h with h
      injection h with _ h

/-- When `Read` panics, the receiver is left with `start` already advanced by
`offset`. -/
theorem Buffer.afterRead_of_panic (b : Buffer) (skip take : Int)
    (h : b.Read skip take = none) :
    b.afterRead skip take = { b with start := wrapInt (b.start + skip) } := by
  unfold Buffer.Read at h
  unfold Buffer.afterRead
  by_cases hc : b.Len < wrapInt (skip + take)
  · rw [if_pos hc] at h
    cases h
  · rw [if_neg hc] at h ⊢
    dsimp only at h
    cases hs : slice b.buf (wrapInt (b.start + skip))
        (wrapInt (wrapInt (b.start + skip) + take)) with
    | none => rfl
    | some buf =>
      rw [hs] at h
      cases h

/-- C12 (as amended). Buffer window invariant `0 ≤ start ≤ end ≤ Cap()` (with
`Cap()` a Go `int`): it holds for the buffer returned by `NewBuffer`, and on a
buffer that satisfies it every operation returns and leaves it in place:
`reset`; `Read(skip, take)` with `skip ≥ 0`, `take ≥ 0` and
`skip + take ≤ 2^63 - 1`, on success and on failure; `ReadAll`, which is
`Read(start, end)`, when `start + end ≤ 2^63 - 1`; `ReadFromReader` and
`ReadFromFD` whenever the underlying read reports a count between 0 and the
size of the free tail it was given.  For `Read` and `ReadAll` the buffer
returned is the receiver as the call leaves it (`afterRead`).  `Seek` does not
assign to the buffer: its embedding yields no new buffer.  Consequently
`Len() ≥ 0`. -/
theorem Buffer_window_invariant (bytes : List Byte) (hbytes : (bytes.length : Int) ≤ maxInt)
    (b : Buffer) (hinv : b.Inv) :
    (NewBuffer bytes).Inv
    ∧ (∃ b1, b.reset = some b1 ∧ b1.Inv)
    ∧ (∀ skip take : Int, 0 ≤ skip → 0 ≤ take → skip + take ≤ maxInt →
        ∃ r b1, b.Read skip take = some (r, b1) ∧ b.afterRead skip take = b1 ∧ b1.Inv)
    ∧ (b.start + b.end_ ≤ maxInt →
        ∃ r b1, b.ReadAll = some (r, b1) ∧ b.afterRead b.start b.end_ = b1 ∧ b1.Inv)
    ∧ (∀ reader : Buffer.Reader,
        (∀ tail, 0 ≤ (reader tail).n ∧ (reader tail).n ≤ (tail.length : Int)) →
        (∃ r b1, b.ReadFromReader reader = some (r, b1) ∧ b1.Inv)
        ∧ (∃ r b1, b.ReadFromFD reader = some (r, b1) ∧ b1.Inv))
    ∧ 0 ≤ b.Len := by
  refine ⟨?_, ?_, ?_, ?_, ?_, ?_⟩
  · exact ⟨le_refl _, le_refl _, Int.ofNat_nonneg _, hbytes⟩
  · obtain ⟨b1, _, hr, _, _, _, _, _, hinv1, _⟩ := Buffer.reset_spec b hinv
    exact ⟨b1, hr, hinv1⟩
  · intro skip take hs ht hsum
    obtain ⟨r, b1, h⟩ := Buffer.Read_total b skip take hinv hs ht hsum
    exact ⟨r, b1, h, Buffer.afterRead_of_Read b skip take r b1 h,
      Buffer.Read_inv b skip take hinv r b1 h⟩
  · intro hsum
    obtain ⟨r, b1, h⟩ := Buffer.ReadAll_total b hinv hsum
    refine ⟨r, b1, h, ?_, Buffer.ReadAll_inv b hinv r b1 h⟩
    unfold Buffer.ReadAll at h
    cases hr : b.Read b.start b.end_ with
    | none => rw [hr] at h; cases h
    | some x =>
      obtain ⟨⟨buf, e⟩, b2⟩ := x
      rw [hr] at h
      dsimp only at h
      injection h with h
      injection h with _ h
      rw [← h]
      exact Buffer.afterRead_of_Read b b.start b.end_ _ _ hr
  · intro reader hn
    exact ⟨Buffer.ReadFromReader_inv b reader hinv hn, Buffer.ReadFromFD_inv b reader hinv hn⟩
  · rw [Buffer.Len_eq b hinv]
    have := hinv.2.1
    omega

theorem Buffer_window_invariant_witness :
    (NewBuffer [0, 0, 0, 0]).Inv
    ∧ (∃ b1, windowBuffer.reset = some b1 ∧ b1.Inv)
    ∧ (∀ skip take : Int, 0 ≤ skip → 0 ≤ take → skip + take ≤ maxInt →
        ∃ r b1, windowBuffer.Read skip take = some (r, b1)
          ∧ windowBuffer.afterRead skip take = b1 ∧ b1.Inv)
    ∧ (windowBuffer.start + windowBuffer.end_ ≤ maxInt →
        ∃ r b1, windowBuffer.ReadAll = some (r, b1)
          ∧ windowBuffer.afterRead windowBuffer.start windowBuffer.end_ = b1 ∧ b1.Inv)
    ∧ (∀ reader : Buffer.Reader,
        (∀ tail, 0 ≤ (reader tail).n ∧ (reader tail).n ≤ (tail.length : Int)) →
        (∃ r b1, windowBuffer.ReadFromReader reader = some (r, b1) ∧ b1.Inv)
        ∧ (∃ r b1, windowBuffer.ReadFromFD reader = some (r, b1) ∧ b1.Inv))
    ∧ 0 ≤ windowBuffer.Len :=
  Buffer_window_invariant [0, 0, 0, 0] (by decide) windowBuffer (by decide)

/-- C12, counterexample to the claim as stated: `windowBuffer` satisfies the
invariant (`start = 2`, `end = 7`, `Cap() = 16`) and `Read(2^63 - 1, 1)` has
non-negative arguments.  The `int` sum `offset+limit` wraps to `-2^63`, the
length check passes, `b.start += offset` wraps `start` to `-(2^63 - 1)`, and
the slice expression panics.  The call leaves the buffer with a negative
`start`: the invariant is broken and `Len()` is negative. -/
theorem Buffer_window_invariant_overflow_counterexample :
    windowBuffer.Inv ∧ (0 : Int) ≤ 9223372036854775807 ∧ (0 : Int) ≤ 1
      ∧ windowBuffer.Read 9223372036854775807 1 = none
      ∧ windowBuffer.afterRead 9223372036854775807 1
          = { windowBuffer with start := -9223372036854775807 }
      ∧ ¬ (windowBuffer.afterRead 9223372036854775807 1).Inv
      ∧ (windowBuffer.afterRead 9223372036854775807 1).Len = -9223372036854775802 := by
  decide

/-- C13, the code at a failing input: a 16-byte buffer with `start = 2`,
`end = 7`, whose window is the five bytes `7 6 5 4 3`.  `ReadAll` calls
`Read(b.start, b.end) = Read(2, 7)`; `Len() = 5 < 9`, so `Read` fails with
`ErrNotEnough`: `ReadAll` returns no bytes and leaves the window unconsumed. -/
theorem Buffer_ReadAll_returns_nothing :
    windowBuffer.Inv
    ∧ windowBuffer.GetBytes = some [7, 6, 5, 4, 3]
    ∧ windowBuffer.Read windowBuffer.start windowBuffer.end_
        = some (([], some Error.ErrNotEnough), windowBuffer)
    ∧ windowBuffer.ReadAll = some ([], windowBuffer)
    ∧ windowBuffer.Len = 5 := by
  decide

/-- C14, the code at a failing input: an empty 8-byte buffer and a reader that
stores the three bytes `1 2 3` in the free tail and returns `(3, err)` with
`err` non-nil.  `ReadFromReader` returns `(3, err)`, the bytes are in the
backing storage, but `end` is not advanced: the window is still empty. -/
theorem Buffer_ReadFromReader_drops_partial_data :
    ∃ b1, (NewBuffer [0, 0, 0, 0, 0, 0, 0, 0]).ReadFromReader partialReader
        = some ((3, some (Error.other 0)), b1)
      ∧ b1.buf = [1, 2, 3, 0, 0, 0, 0, 0]
      ∧ b1.GetBytes = some []
      ∧ b1.Len = 0 := by
  refine ⟨{ buf := [1, 2, 3, 0, 0, 0, 0, 0], start := 0, end_ := 0 }, ?_, rfl, ?_, ?_⟩ <;> decide

/-! ## Header lengths other than 2, and malformed varints -/

/-- C16, the code at a failing input: `headerLen = 1`, `writeBufferLen = 8`,
payload `A` (`N = 1 < 256`).  The claim's wire bytes are the 1-byte encoding
of 1 followed by `A`, that is `01 41`; the code writes a 16-bit header at
bytes 0 and 1 and then copies the payload over byte 1, so the sink receives
`00 41`. -/
theorem headerLenEncoder_one_byte_header_wrong :
    NewHeaderLenEncoder 1 8 = some { headerLen := 1, writeBufferLen := 8 }
    ∧ BE 1 ([0x41] : List Byte).length ++ [0x41] = [0x01, 0x41]
    ∧ headerLenEncoder.EncodeToWriter { headerLen := 1, writeBufferLen := 8 }
        [0, 0, 0, 0, 0, 0, 0, 0] (constWriter none) [0x41]
      = some { writes := [[0x00, 0x41]], err := none } := by
  decide

/-- C19, the code at two failing inputs.  With `headerLen = 1` and one valid
byte, `Seek(1)` returns a 1-byte view and `binary.BigEndian.Uint16` indexes
`header[1]`, outside the view: `Decode` panics.  With `headerLen = 3` and the
window `00 00 02 41 42` (big-endian value of the 3 header bytes: 2, followed
by 2 payload bytes), the `bodyLen` validated is the value of the first two
bytes only, 0, and `Decode` rejects the frame. -/
theorem headerLenDecoder_header_width_ignored (n : Nat) :
    NewHeaderLenDecoder 1 = some { headerLen := 1 }
    ∧ oneByteBuffer.Inv ∧ oneByteBuffer.Seek 1 = some ([5], none)
    ∧ BigEndianUint16 [5] = none
    ∧ headerLenDecoder.Decode { headerLen := 1 } (n + 1) oneByteBuffer
        = { status := Status.panicked, calls := [], buffer := oneByteBuffer }
    ∧ NewHeaderLenDecoder 3 = some { headerLen := 3 }
    ∧ header3Buffer.Inv ∧ header3Buffer.Seek 3 = some ([0, 0, 2], none)
    ∧ BEvalue [0, 0, 2] = 2
    ∧ headerLenDecoder.Decode { headerLen := 3 } (n + 1) header3Buffer
        = { status := Status.returned (some (Error.illegalHeaderLength 0)), calls := [],
            buffer := header3Buffer } := by
  have h1 : headerLenDecoder.iter { headerLen := 1 } oneByteBuffer = Step.panic := by decide
  have h3 : headerLenDecoder.iter { headerLen := 3 } header3Buffer
      = Step.ret (some (Error.illegalHeaderLength 0)) header3Buffer := by decide
  refine ⟨by decide, by decide, by decide, by decide, ?_, by decide, by decide, by decide,
    by decide, ?_⟩
  · unfold headerLenDecoder.Decode
    rw [runLoop, h1]
  · unfold headerLenDecoder.Decode
    rw [runLoop, h3]

/-- The `Read` call of an iteration of `uvarintDecoder.Decode` is the one
described by `readArgs`. -/
theorem uvarintDecoder.iter_readArgs (b : Buffer) (args : Int × Int)
    (h : uvarintDecoder.readArgs b = some args) :
    uvarintDecoder.iter b
      = match b.Read args.1 args.2 with
        | none => Step.panic
        | some ((body, err), b1) =>
          if err = some Error.ErrNotEnough then Step.ret none b1 else Step.next body b1 := by
  unfold uvarintDecoder.readArgs at h
  unfold uvarintDecoder.iter
  cases hg : b.GetBytes with
  | none => rw [hg] at h; cases h
  | some bytes =>
    rw [hg] at h
    dsimp only at h ⊢
    by_cases hc : wrapInt (intOfUint64 (Uvarint bytes).1 + (Uvarint bytes).2) > b.Cap
    · rw [if_pos hc] at h; cases h
    · rw [if_neg hc] at h
      rw [if_neg hc]
      injection h with h
      rw [← h]

/-- C17, the code at two failing inputs.  On `hugeVarintBuffer` (a varint
declaring `2^64 - 1`) the iteration issues `Read(10, -1)`: a negative take,
whose slice expression `buf[10:9]` panics.  On `overlongVarintBuffer` (11
continuation bytes, for which `binary.Uvarint` reports width `-11`) it issues
`Read(-11, 0)`: a negative skip, which succeeds and moves `start` back from 11
to 0, over bytes that were already consumed; the handler is called with an
empty payload and the loop goes on. -/
theorem uvarintDecoder_Read_negative_arguments :
    hugeVarintBuffer.Inv
    ∧ uvarintDecoder.readArgs hugeVarintBuffer = some (10, -1)
    ∧ hugeVarintBuffer.Read 10 (-1) = none
    ∧ uvarintDecoder.iter hugeVarintBuffer = Step.panic
    ∧ overlongVarintBuffer.Inv
    ∧ Uvarint (List.replicate 11 0x80) = (0, -11)
    ∧ uvarintDecoder.readArgs overlongVarintBuffer = some (-11, 0)
    ∧ overlongVarintBuffer.Read (-11) 0
        = some (([], none), { overlongVarintBuffer with start := 0 })
    ∧ uvarintDecoder.iter overlongVarintBuffer
        = Step.next [] { overlongVarintBuffer with start := 0 } := by
  decide

/-! ## Length truncation in the fixed-header encoder -/

theorem uint16_header_trunc (n : Nat) :
    [byte (uint16 (n : Int) >>> 8), byte (uint16 (n : Int))] = BE16 (n % 65536) := by
  have e : uint16 (n : Int) = n % 65536 := by
    unfold uint16
    omega
  rw [e, Nat.shiftRight_eq_div_pow]
  unfold BE16
  rw [byte_mod]

/-- Filling a scratch array of capacity at least `len(bytes) + 2`, whatever the
length of `bytes`. -/
theorem headerLenEncoder.fill_trunc (e : headerLenEncoder) (he : e.headerLen = 2)
    (arr bytes : List Byte) (hcap : bytes.length + 2 ≤ arr.length) :
    e.fill arr ((bytes.length : Int) + 2) bytes
      = some (BE16 (bytes.length % 65536) ++ bytes) := by
  obtain ⟨a0, a1, rest, rfl⟩ : ∃ a0 a1 rest, arr = a0 :: a1 :: rest := by
    match arr, hcap with
    | a0 :: a1 :: rest, _ => exact ⟨a0, a1, rest, rfl⟩
    | [_], h => simp at h
    | [], h => simp at h
  simp only [List.length_cons] at hcap
  obtain ⟨hdr, hhdr⟩ : ∃ hdr, hdr = BE16 (bytes.length % 65536) := ⟨_, rfl⟩
  have hhl : hdr.length = 2 := by rw [hhdr]; rfl
  have hs : slice (a0 :: a1 :: rest) 0 2 = some [a0, a1] := slice_mid [] [a0, a1] rest
  have hput : BigEndianPutUint16 [a0, a1] (uint16 (bytes.length : Int)) = some hdr := by
    rw [hhdr, ← uint16_header_trunc bytes.length]
    rfl
  have hc : copy (a0 :: a1 :: rest) hdr = hdr ++ rest := by
    rw [hhdr]
    simp [copy, BE16]
  have e2 : ((bytes.length : Int) + 2).toNat = bytes.length + 2 := by omega
  have e3 : (2 : Int).toNat = 2 := rfl
  have ht : (hdr ++ rest).take (bytes.length + 2) = hdr ++ rest.take bytes.length := by
    rw [List.take_append_eq_append_take, hhl, List.take_of_length_le (by omega),
      Nat.add_sub_cancel]
  have hl : (rest.take bytes.length).length = bytes.length := by
    rw [List.length_take]; omega
  have hs2 : slice (hdr ++ rest.take bytes.length) 2 ((bytes.length : Int) + 2)
      = some (rest.take bytes.length) := by
    have := slice_mid hdr (rest.take bytes.length) []
    rw [hl, List.append_nil, hhl] at this
    rw [← this, Int.add_comm]
    rfl
  have hcp : copy (rest.take bytes.length) bytes = bytes := by
    unfold copy
    rw [hl, List.take_length, List.drop_eq_nil_of_le (by omega), List.append_nil]
  have h5 : (hdr ++ rest).take 2 = hdr := by
    rw [← hhl, List.take_left]
  have h6 : (hdr ++ bytes ++ (hdr ++ rest).drop (bytes.length + 2)).take (bytes.length + 2)
      = hdr ++ bytes := by
    apply List.take_left'
    rw [List.length_append]
    omega
  unfold headerLenEncoder.fill
  rw [hs]
  dsimp only
  rw [hput]
  dsimp only
  rw [he, hc, e2, e3, ht, hs2]
  dsimp only
  rw [hcp, h5, h6, hhdr]

theorem headerLenEncoder.scratch_any (e : headerLenEncoder) (he : e.headerLen = 2)
    (pooled : List Byte) (l : Nat) (hwl : e.writeBufferLen ≤ maxInt)
    (hpool : (pooled.length : Int) = e.writeBufferLen) (hl : (l : Int) + 2 ≤ maxInt) :
    ∃ arr, e.scratch pooled (l : Int) = some arr ∧ l + 2 ≤ arr.length := by
  unfold maxInt at hwl hl
  have hpos : (0 : Int) ≤ e.writeBufferLen := by omega
  unfold headerLenEncoder.scratch
  rw [he, wrapInt_eq ((l : Int) + 2) (by omega) (by omega),
    wrapInt_eq (e.writeBufferLen - 2) (by omega) (by omega)]
  by_cases hb : (l : Int) ≤ e.writeBufferLen - 2
  · rw [if_pos hb, if_pos ⟨by omega, by omega⟩]
    exact ⟨pooled, rfl, by omega⟩
  · rw [if_neg hb, if_pos (by omega)]
    refine ⟨_, rfl, ?_⟩
    rw [List.length_replicate]
    omega

theorem headerLenEncoder.EncodeToWriter_trunc (e : headerLenEncoder) (he : e.headerLen = 2)
    (pooled bytes : List Byte) (w : Writer) (hwl : e.writeBufferLen ≤ maxInt)
    (hpool : (pooled.length : Int) = e.writeBufferLen)
    (hl : (bytes.length : Int) + 2 ≤ maxInt) :
    headerLenEncoder.EncodeToWriter e pooled w bytes
      = some { writes := [BE16 (bytes.length % 65536) ++ bytes],
               err := w (BE16 (bytes.length % 65536) ++ bytes) } := by
  obtain ⟨arr, hsc, hlen⟩ := headerLenEncoder.scratch_any e he pooled bytes.length hwl hpool hl
  have hfill := headerLenEncoder.fill_trunc e he arr bytes hlen
  unfold maxInt at hl
  unfold headerLenEncoder.EncodeToWriter
  rw [hsc]
  dsimp only
  rw [he, wrapInt_eq ((bytes.length : Int) + 2) (by omega) (by omega), hfill]

/-- C20. Length truncation in the fixed-header encoder, header length 2: for
every payload `p` (a Go slice, so `len p + 2` fits an `int`), `EncodeToWriter`
performs one `Write` and returns that `Write`'s error, no error of its own; the
bytes written are a 2-byte header whose big-endian value is `len p mod 2^16`
followed by all bytes of `p`.  Hence for `len p ≥ 65536` the header value
differs from `len p`, and it equals `len p` exactly when `len p ≤ 65535`. -/
theorem headerLenEncoder_length_truncation (writeBufferLen : Int) (pooled p : List Byte)
    (w : Writer) (_hpos : 0 < writeBufferLen) (hwl : writeBufferLen ≤ maxInt)
    (hpool : (pooled.length : Int) = writeBufferLen)
    (hp : (p.length : Int) + 2 ≤ maxInt) :
    headerLenEncoder.EncodeToWriter { headerLen := 2, writeBufferLen := writeBufferLen }
        pooled w p
      = some { writes := [BE16 (p.length % 65536) ++ p],
               err := w (BE16 (p.length % 65536) ++ p) }
    ∧ BigEndianUint16 (BE16 (p.length % 65536)) = some (p.length % 65536)
    ∧ (BE16 (p.length % 65536) ++ p).length = 2 + p.length
    ∧ (65536 ≤ p.length → p.length % 65536 ≠ p.length)
    ∧ (p.length % 65536 = p.length ↔ p.length ≤ 65535) := by
  refine ⟨headerLenEncoder.EncodeToWriter_trunc _ rfl pooled p w hwl hpool hp, ?_, ?_, ?_, ?_⟩
  · unfold BE16
    rw [BigEndianUint16_eq]
    have := BE16_value (p.length % 65536) (by omega)
    rw [this]
  · rw [List.length_append]
    rfl
  · intro h
    omega
  · constructor
    · intro h
      omega
    · intro h
      omega

theorem headerLenEncoder_length_truncation_witness :
    headerLenEncoder.EncodeToWriter { headerLen := 2, writeBufferLen := 8 }
        [0, 0, 0, 0, 0, 0, 0, 0] (constWriter none) (List.replicate 65537 0x41)
      = some { writes := [BE16 ((List.replicate 65537 (0x41 : Byte)).length % 65536)
                            ++ List.replicate 65537 0x41],
               err := constWriter none
                 (BE16 ((List.replicate 65537 (0x41 : Byte)).length % 65536)
                    ++ List.replicate 65537 0x41) }
    ∧ BigEndianUint16 (BE16 ((List.replicate 65537 (0x41 : Byte)).length % 65536))
        = some ((List.replicate 65537 (0x41 : Byte)).length % 65536)
    ∧ (BE16 ((List.replicate 65537 (0x41 : Byte)).length % 65536)
          ++ List.replicate 65537 (0x41 : Byte)).length
        = 2 + (List.replicate 65537 (0x41 : Byte)).length
    ∧ (65536 ≤ (List.replicate 65537 (0x41 : Byte)).length →
        (List.replicate 65537 (0x41 : Byte)).length % 65536
          ≠ (List.replicate 65537 (0x41 : Byte)).length)
    ∧ ((List.replicate 65537 (0x41 : Byte)).length % 65536
          = (List.replicate 65537 (0x41 : Byte)).length
        ↔ (List.replicate 65537 (0x41 : Byte)).length ≤ 65535) :=
  headerLenEncoder_length_truncation 8 [0, 0, 0, 0, 0, 0, 0, 0] (List.replicate 65537 0x41)
    (constWriter none) (by decide) (by decide) (by decide)
    (by rw [List.length_replicate]; decide)

/-! ## Termination of the fixed-header loop -/

theorem BigEndianUint16_total (header : List Byte) (h : 2 ≤ header.length) :
    ∃ v, BigEndianUint16 header = some v ∧ v ≤ 65535 := by
  match header, h with
  | h0 :: h1 :: rest, _ =>
    refine ⟨h0.val * 256 + h1.val, BigEndianUint16_eq h0 h1 rest, ?_⟩
    have := h0.isLt
    have := h1.isLt
    omega

/-- One iteration of the fixed-header loop, for any header length of at least
2: it returns with the buffer untouched, or it hands a non-empty payload to the
handler and advances `start` by the header length plus the payload length,
within the window. -/
theorem headerLenDecoder.iter_general (d : headerLenDecoder) (hd : 2 ≤ d.headerLen)
    (b : Buffer) (hinv : b.Inv) :
    (∃ e, headerLenDecoder.iter d b = Step.ret e b)
    ∨ (∃ body, headerLenDecoder.iter d b
          = Step.next body { b with start := b.start + d.headerLen + (body.length : Int) }
        ∧ 1 ≤ body.length ∧ d.headerLen + (body.length : Int) ≤ b.Len) := by
  have hlen := Buffer.Len_eq b hinv
  have hinv2 := hinv
  obtain ⟨i0, i1, i2, i3⟩ := hinv2
  unfold Buffer.Cap at i2 i3
  unfold maxInt at i3
  by_cases hshort : b.Len < d.headerLen
  · left
    refine ⟨none, ?_⟩
    unfold headerLenDecoder.iter
    rw [Buffer.Seek_short b d.headerLen hshort]
    rfl
  · have hseek := Buffer.Seek_enough b d.headerLen hinv (by omega) (by omega)
    have hhl : 2 ≤ ((b.buf.drop b.start.toNat).take d.headerLen.toNat).length := by
      rw [List.length_take, List.length_drop]
      omega
    obtain ⟨v, hv, hv2⟩ := BigEndianUint16_total _ hhl
    unfold headerLenDecoder.iter
    rw [hseek]
    dsimp only
    rw [if_neg (by simp), hv]
    dsimp only
    unfold Buffer.Cap
    rw [wrapInt_eq ((b.buf.length : Int) - d.headerLen) (by omega) (by omega)]
    by_cases hbad : (v : Int) = 0 ∨ (v : Int) > (b.buf.length : Int) - d.headerLen
    · left
      rw [if_pos hbad]
      exact ⟨_, rfl⟩
    · rw [if_neg hbad]
      have hb1 : ¬ (v : Int) = 0 := fun h => hbad (Or.inl h)
      have hb2 : ¬ (v : Int) > (b.buf.length : Int) - d.headerLen := fun h => hbad (Or.inr h)
      by_cases hbody : b.Len < d.headerLen + (v : Int)
      · left
        rw [Buffer.Read_short b d.headerLen (v : Int) (by omega) (by omega)
          (by unfold maxInt; omega) hbody]
        exact ⟨_, rfl⟩
      · right
        rw [Buffer.Read_enough b d.headerLen (v : Int) hinv (by omega) (by omega) (by omega)]
        dsimp only
        rw [if_neg (by simp)]
        have hbl : ((b.buf.drop (b.start + d.headerLen).toNat).take (v : Int).toNat).length
            = v := by
          rw [List.length_take, List.length_drop]
          omega
        refine ⟨(b.buf.drop (b.start + d.headerLen).toNat).take (v : Int).toNat, ?_, ?_, ?_⟩
        · rw [hbl]
        · rw [hbl]
          omega
        · rw [hbl]
          omega

theorem headerLenDecoder.Decode_returns (d : headerLenDecoder) (hd : 2 ≤ d.headerLen)
    (fuel : Nat) :
    ∀ b : Buffer, b.Inv → b.Len < (fuel : Int) →
      ∃ err calls b1, headerLenDecoder.Decode d fuel b
          = { status := Status.returned err, calls := calls, buffer := b1 }
        ∧ (calls.length : Int) * (d.headerLen + 1) ≤ b.Len := by
  induction fuel with
  | zero =>
    intro b hinv hlt
    have hlen := Buffer.Len_eq b hinv
    have := hinv.2.1
    simp only [Nat.cast_zero] at hlt
    omega
  | succ k ih =>
    intro b hinv hlt
    have hlen := Buffer.Len_eq b hinv
    have hle := hinv.2.1
    rcases headerLenDecoder.iter_general d hd b hinv with ⟨e, he⟩ | ⟨body, hb, hb1, hb2⟩
    · refine ⟨e, [], b, ?_, ?_⟩
      · unfold headerLenDecoder.Decode runLoop
        rw [he]
      · simp only [List.length_nil, Nat.cast_zero, zero_mul]
        omega
    · obtain ⟨i0, i1, i2, i3⟩ := hinv
      rw [hlen] at hb2
      have hinv1 : Buffer.Inv
          { b with start := b.start + d.headerLen + (body.length : Int) } :=
        ⟨by show 0 ≤ b.start + d.headerLen + (body.length : Int); omega,
         by show b.start + d.headerLen + (body.length : Int) ≤ b.end_; omega, i2, i3⟩
      have hlen1 := Buffer.Len_eq _ hinv1
      have hlen1b : Buffer.Len { b with start := b.start + d.headerLen + (body.length : Int) }
          = b.end_ - (b.start + d.headerLen + (body.length : Int)) := hlen1
      obtain ⟨err, calls, b2, hdec, hcount⟩ := ih _ hinv1 (by
        rw [hlen1b]
        push_cast at hlt
        omega)
      refine ⟨err, body :: calls, b2, ?_, ?_⟩
      · unfold headerLenDecoder.Decode at hdec ⊢
        rw [runLoop, hb]
        dsimp only
        rw [hdec]
      · rw [hlen1b] at hcount
        rw [hlen]
        have hmul : ((List.length (body :: calls) : Nat) : Int) * (d.headerLen + 1)
            = (calls.length : Int) * (d.headerLen + 1) + (d.headerLen + 1) := by
          rw [List.length_cons]
          push_cast
          ring
        rw [hmul]
        omega

/-- C18. Fixed-header `Decode` always terminates: for every header length of at
least 2 and every buffer satisfying the window invariant, whatever its bytes,
`Decode` returns within `Len() + 1` iterations (`Len()` taken before the call).
Each iteration that invokes the handler passes it at least one byte and
decreases `Len()` by `headerLen + bodyLen ≥ headerLen + 1`, so the handler is
invoked at most `Len() / (headerLen + 1)` times. -/
theorem headerLenDecoder_Decode_terminates (d : headerLenDecoder) (hd : 2 ≤ d.headerLen)
    (b : Buffer) (hinv : b.Inv) :
    (∀ fuel : Nat, b.Len < (fuel : Int) →
      ∃ err calls b1, headerLenDecoder.Decode d fuel b
          = { status := Status.returned err, calls := calls, buffer := b1 }
        ∧ (calls.length : Int) ≤ b.Len / (d.headerLen + 1))
    ∧ (∀ body b1, headerLenDecoder.iter d b = Step.next body b1 →
        1 ≤ body.length ∧ b1.Len = b.Len - (d.headerLen + (body.length : Int))) := by
  constructor
  · intro fuel hlt
    obtain ⟨err, calls, b1, hdec, hcount⟩ :=
      headerLenDecoder.Decode_returns d hd fuel b hinv hlt
    exact ⟨err, calls, b1, hdec, Int.le_ediv_of_mul_le (by omega) hcount⟩
  · intro body b1 hstep
    have hlen := Buffer.Len_eq b hinv
    rcases headerLenDecoder.iter_general d hd b hinv with ⟨e, he⟩ | ⟨body2, hb, hb1, hb2⟩
    · rw [he] at hstep
      cases hstep
    · rw [hb] at hstep
      injection hstep with h1 h2
      subst h1
      obtain ⟨i0, i1, i2, i3⟩ := hinv
      rw [hlen] at hb2
      have hinv1 : Buffer.Inv
          { b with start := b.start + d.headerLen + (body2.length : Int) } :=
        ⟨by show 0 ≤ b.start + d.headerLen + (body2.length : Int); omega,
         by show b.start + d.headerLen + (body2.length : Int) ≤ b.end_; omega, i2, i3⟩
      have hlen1 : Buffer.Len { b with start := b.start + d.headerLen + (body2.length : Int) }
          = b.end_ - (b.start + d.headerLen + (body2.length : Int)) := Buffer.Len_eq _ hinv1
      rw [← h2, hlen1, hlen]
      exact ⟨hb1, by omega⟩

theorem headerLenDecoder_Decode_terminates_witness :
    (∀ fuel : Nat, streamBuffer.Len < (fuel : Int) →
      ∃ err calls b1, headerLenDecoder.Decode { headerLen := 2 } fuel streamBuffer
          = { status := Status.returned err, calls := calls, buffer := b1 }
        ∧ (calls.length : Int) ≤ streamBuffer.Len / ((2 : Int) + 1))
    ∧ (∀ body b1, headerLenDecoder.iter { headerLen := 2 } streamBuffer = Step.next body b1 →
        1 ≤ body.length ∧ b1.Len = streamBuffer.Len - ((2 : Int) + (body.length : Int))) :=
  headerLenDecoder_Decode_terminates { headerLen := 2 } (by decide) streamBuffer (by decide)

/-! ## The pool of the fixed-header encoder -/

/-- Bytes 2 and up of the first `k` bytes do not depend on bytes 0 and 1. -/
theorem take_drop_two (x y a0 a1 : Byte) (rest : List Byte) (k : Nat) :
    ((x :: y :: rest).take k).drop 2 = ((a0 :: a1 :: rest).take k).drop 2 := by
  match k with
  | 0 => rfl
  | 1 => rfl
  | k + 2 => rfl

/-- On an array of at least two bytes the body of `EncodeToWriter` stores the
16-bit header and then reaches the slice expression `buffer[e.headerLen:]`. -/
theorem headerLenEncoder.fillArr_cons (e : headerLenEncoder) (a0 a1 : Byte)
    (rest bytes : List Byte) (n : Int) :
    e.fillArr (a0 :: a1 :: rest) n bytes
      = match slice ((BE16 (bytes.length % 65536) ++ rest).take n.toNat) e.headerLen n with
        | none => BE16 (bytes.length % 65536) ++ rest
        | some dst =>
          (BE16 (bytes.length % 65536) ++ rest).take e.headerLen.toNat ++ copy dst bytes
            ++ (BE16 (bytes.length % 65536) ++ rest).drop n.toNat := by
  have hs : slice (a0 :: a1 :: rest) 0 2 = some [a0, a1] := slice_mid [] [a0, a1] rest
  have hput : BigEndianPutUint16 [a0, a1] (uint16 (bytes.length : Int))
      = some (BE16 (bytes.length % 65536)) := by
    rw [← uint16_header_trunc bytes.length]
    rfl
  have hc : copy (a0 :: a1 :: rest) (BE16 (bytes.length % 65536))
      = BE16 (bytes.length % 65536) ++ rest := by
    simp [copy, BE16]
  unfold headerLenEncoder.fillArr
  rw [hs]
  dsimp only
  rw [hput]
  dsimp only
  rw [hc]

theorem headerLenEncoder.fill_cons (e : headerLenEncoder) (a0 a1 : Byte)
    (rest bytes : List Byte) (n : Int) :
    e.fill (a0 :: a1 :: rest) n bytes
      = match slice ((BE16 (bytes.length % 65536) ++ rest).take n.toNat) e.headerLen n with
        | none => none
        | some dst =>
          some (((BE16 (bytes.length % 65536) ++ rest).take e.headerLen.toNat ++ copy dst bytes
            ++ (BE16 (bytes.length % 65536) ++ rest).drop n.toNat).take n.toNat) := by
  have hs : slice (a0 :: a1 :: rest) 0 2 = some [a0, a1] := slice_mid [] [a0, a1] rest
  have hput : BigEndianPutUint16 [a0, a1] (uint16 (bytes.length : Int))
      = some (BE16 (bytes.length % 65536)) := by
    rw [← uint16_header_trunc bytes.length]
    rfl
  have hc : copy (a0 :: a1 :: rest) (BE16 (bytes.length % 65536))
      = BE16 (bytes.length % 65536) ++ rest := by
    simp [copy, BE16]
  unfold headerLenEncoder.fill
  rw [hs]
  dsimp only
  rw [hput]
  dsimp only
  rw [hc]

/-- An array of fewer than two bytes: `buffer[0:2]` panics before any store. -/
theorem slice_two_short (arr : List Byte) (h : arr.length < 2) : slice arr 0 2 = none := by
  unfold slice
  rw [if_neg]
  intro hc
  omega

/-- The body of `EncodeToWriter` keeps the length of the backing array and
leaves the bytes at indices 2 up to `headerLen` as they were. -/
theorem headerLenEncoder.fillArr_keeps (e : headerLenEncoder) (arr bytes : List Byte)
    (n : Int) :
    (e.fillArr arr n bytes).length = arr.length
      ∧ ((e.fillArr arr n bytes).take e.headerLen.toNat).drop 2
          = (arr.take e.headerLen.toNat).drop 2 := by
  by_cases h2 : arr.length < 2
  · have : e.fillArr arr n bytes = arr := by
      unfold headerLenEncoder.fillArr
      rw [slice_two_short arr h2]
    rw [this]
    exact ⟨rfl, rfl⟩
  · obtain ⟨a0, a1, rest, rfl⟩ : ∃ a0 a1 rest, arr = a0 :: a1 :: rest := by
      match arr, h2 with
      | a0 :: a1 :: rest, _ => exact ⟨a0, a1, rest, rfl⟩
      | [_], h => simp at h
      | [], h => simp at h
    rw [headerLenEncoder.fillArr_cons]
    obtain ⟨arr1, harr1⟩ : ∃ arr1, arr1 = BE16 (bytes.length % 65536) ++ rest := ⟨_, rfl⟩
    have hlen1 : arr1.length = (a0 :: a1 :: rest).length := by
      rw [harr1]
      simp [BE16]
    have hkeep1 : (arr1.take e.headerLen.toNat).drop 2
        = ((a0 :: a1 :: rest).take e.headerLen.toNat).drop 2 := by
      rw [harr1]
      exact take_drop_two _ _ a0 a1 rest _
    rw [← harr1]
    cases hs : slice (arr1.take n.toNat) e.headerLen n with
    | none => exact ⟨hlen1, hkeep1⟩
    | some dst =>
      dsimp only
      obtain ⟨hlo, hdl, hhi⟩ := slice_length _ _ _ _ hs
      rw [List.length_take] at hhi
      have hcl := copy_length dst bytes
      have htl : (arr1.take e.headerLen.toNat).length = e.headerLen.toNat := by
        rw [List.length_take]
        omega
      constructor
      · rw [List.length_append, List.length_append, htl, hcl, List.length_drop, ← hlen1]
        omega
      · rw [List.append_assoc, List.take_left' htl]
        exact hkeep1

theorem headerLenEncoder.pooledAfter_keeps (e : headerLenEncoder) (pooled bytes : List Byte) :
    (e.pooledAfter pooled bytes).length = pooled.length
      ∧ ((e.pooledAfter pooled bytes).take e.headerLen.toNat).drop 2
          = (pooled.take e.headerLen.toNat).drop 2 := by
  unfold headerLenEncoder.pooledAfter
  by_cases h1 : (bytes.length : Int) ≤ wrapInt (e.writeBufferLen - e.headerLen)
  · rw [if_pos h1]
    by_cases h2 : 0 ≤ wrapInt ((bytes.length : Int) + e.headerLen)
        ∧ wrapInt ((bytes.length : Int) + e.headerLen) ≤ (pooled.length : Int)
    · rw [if_pos h2]
      exact headerLenEncoder.fillArr_keeps e pooled bytes _
    · rw [if_neg h2]
      exact ⟨rfl, rfl⟩
  · rw [if_neg h1]
    exact ⟨rfl, rfl⟩

/-- Every slice of the pool has `writeBufferLen` bytes, and its bytes at
indices 2 up to `headerLen` are zero: `New` zeroes them and no encode call
stores there. -/
theorem headerLenEncoder.InPool_zero (e : headerLenEncoder) (pooled : List Byte)
    (h : e.InPool pooled) :
    pooled.length = e.writeBufferLen.toNat
      ∧ ∀ x ∈ (pooled.take e.headerLen.toNat).drop 2, x = 0 := by
  induction h with
  | fresh =>
    refine ⟨List.length_replicate _ _, ?_⟩
    intro x hx
    exact List.eq_of_mem_replicate (List.mem_of_mem_take (List.mem_of_mem_drop hx))
  | put pooled bytes _ ih =>
    obtain ⟨hl, hk⟩ := headerLenEncoder.pooledAfter_keeps e pooled bytes
    rw [hl, hk]
    exact ih

/-- The bytes handed to `Write` when the scratch array has room for header and
payload: the 16-bit header cut to `headerLen` bytes, the bytes of the array at
indices 2 up to `headerLen`, and the payload. -/
theorem headerLenEncoder.fill_pool (e : headerLenEncoder) (h : Nat)
    (hh : e.headerLen = (h : Int)) (arr bytes : List Byte) (h2 : 2 ≤ arr.length)
    (hcap : bytes.length + h ≤ arr.length) :
    e.fill arr ((bytes.length : Int) + e.headerLen) bytes
      = some ((BE16 (bytes.length % 65536) ++ arr.drop 2).take h ++ bytes) := by
  obtain ⟨a0, a1, rest, rfl⟩ : ∃ a0 a1 rest, arr = a0 :: a1 :: rest := by
    match arr, h2 with
    | a0 :: a1 :: rest, _ => exact ⟨a0, a1, rest, rfl⟩
    | [_], h => simp at h
    | [], h => simp at h
  rw [headerLenEncoder.fill_cons]
  show _ = some ((BE16 (bytes.length % 65536) ++ rest).take h ++ bytes)
  obtain ⟨arr1, harr1⟩ : ∃ arr1, arr1 = BE16 (bytes.length % 65536) ++ rest := ⟨_, rfl⟩
  have hlen1 : arr1.length = (a0 :: a1 :: rest).length := by
    rw [harr1]
    simp [BE16]
  rw [← harr1, hh]
  have e1 : ((bytes.length : Int) + (h : Int)).toNat = h + bytes.length := by omega
  have e2 : ((h : Nat) : Int).toNat = h := by omega
  have hpre : (arr1.take h).length = h := by
    rw [List.length_take]
    omega
  have hmid : ((arr1.drop h).take bytes.length).length = bytes.length := by
    rw [List.length_take, List.length_drop]
    omega
  have hs : slice (arr1.take (h + bytes.length)) (h : Int) ((bytes.length : Int) + (h : Int))
      = some ((arr1.drop h).take bytes.length) := by
    have := slice_mid (arr1.take h) ((arr1.drop h).take bytes.length) []
    rw [hpre, hmid, List.append_nil, ← List.take_add, Int.add_comm] at this
    exact this
  have hcp : copy ((arr1.drop h).take bytes.length) bytes = bytes := by
    unfold copy
    rw [hmid, List.take_length, List.drop_eq_nil_of_le (by omega), List.append_nil]
  have hout : (arr1.take h ++ bytes ++ arr1.drop (h + bytes.length)).take (h + bytes.length)
      = arr1.take h ++ bytes := by
    apply List.take_left'
    rw [List.length_append, hpre]
  rw [e1, e2, hs]
  dsimp only
  rw [hcp, hout]

/-- A payload small enough for the pool, written through a pooled slice of
`writeBufferLen ≥ 2` bytes. -/
theorem headerLenEncoder.EncodeToWriter_pool (e : headerLenEncoder) (pooled bytes : List Byte)
    (w : Writer) (hhl : 0 < e.headerLen) (hwm : e.writeBufferLen ≤ maxInt)
    (hpool : pooled.length = e.writeBufferLen.toNat)
    (hp : (bytes.length : Int) ≤ e.writeBufferLen - e.headerLen)
    (h2 : 2 ≤ e.writeBufferLen) :
    e.EncodeToWriter pooled w bytes
      = some { writes := [(BE16 (bytes.length % 65536) ++ pooled.drop 2).take e.headerLen.toNat
                            ++ bytes],
               err := w ((BE16 (bytes.length % 65536) ++ pooled.drop 2).take e.headerLen.toNat
                            ++ bytes) } := by
  unfold maxInt at hwm
  obtain ⟨h, hh⟩ : ∃ h : Nat, e.headerLen = (h : Int) := ⟨e.headerLen.toNat, by omega⟩
  have hfill := headerLenEncoder.fill_pool e h hh pooled bytes (by omega) (by omega)
  have hsc : e.scratch pooled (bytes.length : Int) = some pooled := by
    unfold headerLenEncoder.scratch
    rw [wrapInt_eq ((bytes.length : Int) + e.headerLen) (by omega) (by omega),
      wrapInt_eq (e.writeBufferLen - e.headerLen) (by omega) (by omega),
      if_pos hp, if_pos ⟨by omega, by omega⟩]
  have e2 : e.headerLen.toNat = h := by omega
  unfold headerLenEncoder.EncodeToWriter
  rw [hsc]
  dsimp only
  rw [wrapInt_eq ((bytes.length : Int) + e.headerLen) (by omega) (by omega), hfill, e2]

/-- A pooled slice of one byte: `buffer[0:2]` panics, nothing is written. -/
theorem headerLenEncoder.EncodeToWriter_pool_one (e : headerLenEncoder)
    (pooled bytes : List Byte) (w : Writer) (hhl : 0 < e.headerLen)
    (hpool : pooled.length = e.writeBufferLen.toNat)
    (hp : (bytes.length : Int) ≤ e.writeBufferLen - e.headerLen)
    (h2 : e.writeBufferLen < 2) :
    e.EncodeToWriter pooled w bytes = none := by
  have hsc : e.scratch pooled (bytes.length : Int) = some pooled := by
    unfold headerLenEncoder.scratch
    rw [wrapInt_eq ((bytes.length : Int) + e.headerLen) (by omega) (by omega),
      wrapInt_eq (e.writeBufferLen - e.headerLen) (by omega) (by omega),
      if_pos hp, if_pos ⟨by omega, by omega⟩]
  have hfill : ∀ n, e.fill pooled n bytes = none := by
    intro n
    unfold headerLenEncoder.fill
    rw [slice_two_short pooled (by omega)]
  unfold headerLenEncoder.EncodeToWriter
  rw [hsc]
  dsimp only
  rw [hfill]

/-- In a slice of the pool the bytes at indices 2 up to `headerLen` are
`headerLen - 2` zeros, when `headerLen` does not exceed `writeBufferLen`. -/
theorem headerLenEncoder.InPool_header (e : headerLenEncoder) (pooled : List Byte)
    (h : e.InPool pooled) (hle : e.headerLen ≤ e.writeBufferLen) (hdr : List Byte)
    (hhdr : hdr.length = 2) :
    (hdr ++ pooled.drop 2).take e.headerLen.toNat
      = hdr.take e.headerLen.toNat ++ List.replicate (e.headerLen.toNat - 2) 0 := by
  obtain ⟨hlen, hz⟩ := headerLenEncoder.InPool_zero e pooled h
  rw [List.take_append_eq_append_take, hhdr, ← List.drop_take]
  congr 1
  rw [List.eq_replicate_iff]
  refine ⟨?_, hz⟩
  rw [List.length_drop, List.length_take]
  omega

/-- C15. Pool non-interference for the fixed-header encoder: for every
configuration accepted by `NewHeaderLenEncoder` (`headerLen > 0`,
`writeBufferLen > 0`, both Go `int`s) and every payload `p` small enough to use
the pool (`len p ≤ writeBufferLen - headerLen`), the call does the same for any
two contents the pooled slice can have when it is checked out (fresh from
`New`, or handed back by earlier encode calls).  With `writeBufferLen ≥ 2` one
`Write` receives the 16-bit header cut to `headerLen` bytes, `headerLen - 2`
zero bytes, and `p`: no byte of an earlier payload.  With `writeBufferLen = 1`
the call panics before any `Write`, whatever the slice holds. -/
theorem headerLenEncoder_pool_non_interference (e : headerLenEncoder)
    (hhl : 0 < e.headerLen) (hwl : 0 < e.writeBufferLen) (hwm : e.writeBufferLen ≤ maxInt)
    (pooled1 pooled2 : List Byte) (h1 : e.InPool pooled1) (h2 : e.InPool pooled2)
    (w : Writer) (p : List Byte) (hp : (p.length : Int) ≤ e.writeBufferLen - e.headerLen) :
    e.EncodeToWriter pooled1 w p = e.EncodeToWriter pooled2 w p
    ∧ (2 ≤ e.writeBufferLen →
        e.EncodeToWriter pooled1 w p
          = some { writes := [(BE16 (p.length % 65536)).take e.headerLen.toNat
                                ++ List.replicate (e.headerLen.toNat - 2) 0 ++ p],
                   err := w ((BE16 (p.length % 65536)).take e.headerLen.toNat
                                ++ List.replicate (e.headerLen.toNat - 2) 0 ++ p) })
    ∧ (e.writeBufferLen < 2 → e.EncodeToWriter pooled1 w p = none) := by
  have hle : e.headerLen ≤ e.writeBufferLen := by omega
  have key : ∀ pooled, e.InPool pooled →
      (2 ≤ e.writeBufferLen →
        e.EncodeToWriter pooled w p
          = some { writes := [(BE16 (p.length % 65536)).take e.headerLen.toNat
                                ++ List.replicate (e.headerLen.toNat - 2) 0 ++ p],
                   err := w ((BE16 (p.length % 65536)).take e.headerLen.toNat
                                ++ List.replicate (e.headerLen.toNat - 2) 0 ++ p) })
      ∧ (e.writeBufferLen < 2 → e.EncodeToWriter pooled w p = none) := by
    intro pooled hin
    obtain ⟨hlen, _⟩ := headerLenEncoder.InPool_zero e pooled hin
    constructor
    · intro hge
      rw [headerLenEncoder.EncodeToWriter_pool e pooled p w hhl hwm hlen hp hge,
        headerLenEncoder.InPool_header e pooled hin hle (BE16 (p.length % 65536)) rfl]
    · intro hlt
      exact headerLenEncoder.EncodeToWriter_pool_one e pooled p w hhl hlen hp hlt
  obtain ⟨k1, k1'⟩ := key pooled1 h1
  obtain ⟨k2, k2'⟩ := key pooled2 h2
  refine ⟨?_, k1, k1'⟩
  by_cases hge : 2 ≤ e.writeBufferLen
  · rw [k1 hge, k2 hge]
  · rw [k1' (by omega), k2' (by omega)]

theorem headerLenEncoder_pool_non_interference_witness :
    headerLenEncoder.EncodeToWriter { headerLen := 3, writeBufferLen := 8 }
        [0, 5, 0, 1, 2, 3, 4, 5] (constWriter none) [0x41]
      = headerLenEncoder.EncodeToWriter { headerLen := 3, writeBufferLen := 8 }
          [0, 0, 0, 0, 0, 0, 0, 0] (constWriter none) [0x41]
    ∧ ((2 : Int) ≤ 8 →
        headerLenEncoder.EncodeToWriter { headerLen := 3, writeBufferLen := 8 }
            [0, 5, 0, 1, 2, 3, 4, 5] (constWriter none) [0x41]
          = some { writes := [(BE16 (([0x41] : List Byte).length % 65536)).take (3 : Int).toNat
                                ++ List.replicate ((3 : Int).toNat - 2) 0 ++ [0x41]],
                   err := constWriter none
                     ((BE16 (([0x41] : List Byte).length % 65536)).take (3 : Int).toNat
                        ++ List.replicate ((3 : Int).toNat - 2) 0 ++ [0x41]) })
    ∧ ((8 : Int) < 2 →
        headerLenEncoder.EncodeToWriter { headerLen := 3, writeBufferLen := 8 }
            [0, 5, 0, 1, 2, 3, 4, 5] (constWriter none) [0x41] = none) :=
  headerLenEncoder_pool_non_interference { headerLen := 3, writeBufferLen := 8 }
    (by decide) (by decide) (by decide) [0, 5, 0, 1, 2, 3, 4, 5] [0, 0, 0, 0, 0, 0, 0, 0]
    (headerLenEncoder.InPool.put [0, 0, 0, 0, 0, 0, 0, 0] [1, 2, 3, 4, 5]
      headerLenEncoder.InPool.fresh)
    headerLenEncoder.InPool.fresh (constWriter none) [0x41] (by decide)

end Codec
